import Mathlib

/-!
Shallow embedding of the SiPixelPhase1Common HistogramManager core
(src/DQM/SiPixelPhase1Common/src/HistogramManager.cc).

The step program interpreter (stage 1: executeStep1Spec, per-event
harvesting) and the stage-2 harvesting transforms (executeSave,
executeGroupBy, executeReduce, executeExtend) are translated from the
source file.  The supporting data model (SummationStep, the
GeometryInterface::Values key type, AbstractHistogram and the ROOT TH1
histogram it wraps) is declared in headers that are not part of this
repository snapshot; those parts are modelled from the spec, as noted on
each definition.

Machine doubles are modelled as Rat, C++ ints as Int (no claim here
exercises overflow or float rounding), assert failures and thrown
exceptions as Except errors, and the raw Accumulator pointer used as the
stage-1 cache slot as an optional table key (the spec design notes
prescribe exactly this "slot handle" view of the fastpath pointer).
-/

namespace HistMgr

/-- SummationStep::Stage (modelled from the spec: stage tags of a step;
STAGE1 = per-event, STAGE1_2 = per-event harvest, STAGE2 = post-run). -/
inductive Stage where
  | STAGE1
  | STAGE1_2
  | STAGE2
deriving DecidableEq, Repr

/-- SummationStep::Type (modelled from the spec: the fixed step vocabulary,
NO_TYPE being the absent-type sentinel). -/
inductive SType where
  | SAVE
  | COUNT
  | EXTEND_X
  | EXTEND_Y
  | GROUPBY
  | REDUCE
  | CUSTOM
  | NO_TYPE
deriving DecidableEq, Repr

/-- Modelled from the spec: a SummationStep is a typed step with a stage
tag, a list of columns and an optional string argument.  Columns are
opaque identifiers, modelled as Nat. -/
structure Step where
  type : SType
  stage : Stage
  columns : List Nat
  arg : String
deriving DecidableEq, Repr

/-- Modelled from the spec: the UNDEFINED sentinel cell value of
GeometryInterface (a reserved integer meaning "no defined value"). -/
def UNDEFINED : Int := 268435455

/-- Modelled from the spec: GeometryInterface::Values, the Key type — an
ordered, duplicate-free collection of (column, value) pairs.  The list is
kept sorted by column by the put operation; the Table (a std::map keyed
by Values) iterates keys in ascending lexicographic order of this list. -/
structure Values where
  values : List (Nat × Int)
deriving DecidableEq, Repr

namespace Values

/-- get(column): the (column, value) pair for a column, with the
UNDEFINED sentinel when the column is absent. -/
def get (v : Values) (c : Nat) : Nat × Int :=
  match v.values.find? (fun p => p.fst = c) with
  | some p => p
  | none => (c, UNDEFINED)

/-- operator[]: the cell value of a column. -/
def idx (v : Values) (c : Nat) : Int := (v.get c).snd

/-- Sorted duplicate-free insertion of a pair into the backing list. -/
def insertPair : List (Nat × Int) → (Nat × Int) → List (Nat × Int)
  | [], p => [p]
  | q :: rest, p =>
    if p.fst < q.fst then p :: q :: rest
    else if p.fst = q.fst then p :: rest
    else q :: insertPair rest p

/-- put(value): insert a (column, value) pair, replacing any pair already
present for that column (the duplicate-free invariant). -/
def put (v : Values) (p : Nat × Int) : Values := ⟨insertPair v.values p⟩

/-- erase(column): drop the pair for a column. -/
def erase (v : Values) (c : Nat) : Values :=
  ⟨v.values.filter (fun p => p.fst ≠ c)⟩

/-- Lexicographic order on pairs (column first, then value), as induced
by std::pair::operator<. -/
def pairLt (p q : Nat × Int) : Bool :=
  p.fst < q.fst || (p.fst = q.fst && p.snd < q.snd)

/-- Lexicographic order on the backing lists, as induced by the
container's operator< — the std::map key order of the Table. -/
def listLt : List (Nat × Int) → List (Nat × Int) → Bool
  | [], [] => false
  | [], _ :: _ => true
  | _ :: _, [] => false
  | p :: ps, q :: qs => pairLt p q || (p = q && listLt ps qs)

/-- Values::operator<. -/
def lt (a b : Values) : Bool := listLt a.values b.values

end Values

/-- Axis-title-aware model of a ROOT TH1/TH2 histogram (modelled from the
spec: a bound numeric 1-D or 2-D histogram with named axes, bins and an
entry count).  1-D histograms store their in-range bin contents in binsX
(nbinsY is 1, as for ROOT TH1F); 2-D histograms store rows (indexed by
the y bin) of x bin contents in bins2.  Overflow/underflow cells are not
stored and read as 0. -/
structure TH1 where
  name : String
  title : String
  xtitle : String
  ytitle : String
  dim : Nat
  nbinsX : Nat
  xmin : Rat
  xmax : Rat
  nbinsY : Nat
  ymin : Rat
  ymax : Rat
  binsX : List Rat
  bins2 : List (List Rat)
  entries : Rat
deriving DecidableEq, Repr

/-- Split a character list at semicolons (structurally recursive stand-in
for String.splitOn on the separator ";", with which it agrees). -/
def splitSemiAux : List Char → List Char → List String
  | [], acc => [String.mk acc.reverse]
  | c :: rest, acc =>
    if c = ';' then String.mk acc.reverse :: splitSemiAux rest []
    else splitSemiAux rest (c :: acc)

/-- The semicolon split ROOT applies to histogram title strings. -/
def splitSemi (s : String) : List String := splitSemiAux s.data []

namespace TH1

/-- new TH1F(name, title, nbins, lo, hi): ROOT parses the title string on
semicolons into title;xtitle;ytitle.  Bins start at zero. -/
def mkTH1F (name fulltitle : String) (nbins : Nat) (lo hi : Rat) : TH1 :=
  let parts := splitSemi fulltitle
  { name := name
    title := parts.getD 0 ""
    xtitle := parts.getD 1 ""
    ytitle := parts.getD 2 ""
    dim := 1
    nbinsX := nbins
    xmin := lo
    xmax := hi
    nbinsY := 1
    ymin := 0
    ymax := 1
    binsX := List.replicate nbins 0
    bins2 := []
    entries := 0 }

/-- new TH2F(name, title, nx, xlo, xhi, ny, ylo, yhi). -/
def mkTH2F (name fulltitle : String) (nx : Nat) (xlo xhi : Rat)
    (ny : Nat) (ylo yhi : Rat) : TH1 :=
  let parts := splitSemi fulltitle
  { name := name
    title := parts.getD 0 ""
    xtitle := parts.getD 1 ""
    ytitle := parts.getD 2 ""
    dim := 2
    nbinsX := nx
    xmin := xlo
    xmax := xhi
    nbinsY := ny
    ymin := ylo
    ymax := yhi
    binsX := []
    bins2 := List.replicate ny (List.replicate nx 0)
    entries := 0 }

/-- TH1::FindBin on the x axis: 0 is the underflow bin, nbinsX+1 the
overflow bin, in-range values map to 1..nbinsX. -/
def findBinX (t : TH1) (x : Rat) : Int :=
  if x < t.xmin then 0
  else if t.xmax ≤ x then (t.nbinsX : Int) + 1
  else 1 + Rat.floor ((x - t.xmin) * (t.nbinsX : Rat) / (t.xmax - t.xmin))

/-- TH1::FindBin on the y axis. -/
def findBinY (t : TH1) (y : Rat) : Int :=
  if y < t.ymin then 0
  else if t.ymax ≤ y then (t.nbinsY : Int) + 1
  else 1 + Rat.floor ((y - t.ymin) * (t.nbinsY : Rat) / (t.ymax - t.ymin))

/-- TH1::Fill(x): increment the bin containing x (dropped when it falls
in an unstored overflow cell) and the entry count. -/
def fill1 (t : TH1) (x : Rat) : TH1 :=
  let b := t.findBinX x
  let t1 := { t with entries := t.entries + 1 }
  if 1 ≤ b ∧ b ≤ (t.nbinsX : Int) then
    let nb := t1.binsX.set (b - 1).toNat (t1.binsX.getD (b - 1).toNat 0 + 1)
    { t1 with binsX := nb }
  else t1

/-- TH2::Fill(x, y). -/
def fill2 (t : TH1) (x y : Rat) : TH1 :=
  let bx := t.findBinX x
  let by' := t.findBinY y
  let t1 := { t with entries := t.entries + 1 }
  if (1 ≤ bx ∧ bx ≤ (t.nbinsX : Int)) ∧ (1 ≤ by' ∧ by' ≤ (t.nbinsY : Int)) then
    let row := t1.bins2.getD (by' - 1).toNat []
    let row' := row.set (bx - 1).toNat (row.getD (bx - 1).toNat 0 + 1)
    { t1 with bins2 := t1.bins2.set (by' - 1).toNat row' }
  else t1

/-- TH1::GetBinContent(bin) with one index.  For a 1-D histogram the
index addresses the x axis; for a 2-D histogram ROOT interprets it as a
global bin number over a (nbinsX+2) wide grid that includes the
under/overflow cells (which read as 0 here). -/
def getBinContent1 (t : TH1) (i : Int) : Rat :=
  if t.dim = 1 then
    if 1 ≤ i ∧ i ≤ (t.nbinsX : Int) then t.binsX.getD (i - 1).toNat 0 else 0
  else
    if 0 ≤ i then
      let w : Nat := t.nbinsX + 2
      let bx : Nat := i.toNat % w
      let by' : Nat := i.toNat / w
      if 1 ≤ bx ∧ bx ≤ t.nbinsX ∧ 1 ≤ by' ∧ by' ≤ t.nbinsY then
        (t.bins2.getD (by' - 1) []).getD (bx - 1) 0
      else 0
    else 0

/-- TH1::GetBinContent(binx, biny).  On a 1-D histogram ROOT ignores the
y index (TH1::GetBin clamps it away). -/
def getBinContent2 (t : TH1) (i j : Int) : Rat :=
  if t.dim = 1 then t.getBinContent1 i
  else
    if (1 ≤ i ∧ i ≤ (t.nbinsX : Int)) ∧ (1 ≤ j ∧ j ≤ (t.nbinsY : Int)) then
      (t.bins2.getD (j - 1).toNat []).getD (i - 1).toNat 0
    else 0

/-- TH1::SetBinContent(bin, v): ROOT always bumps the entry count, and
stores the content only when the bin is in range (unstored overflow
cells swallow the write). -/
def setBin1 (t : TH1) (i : Int) (v : Rat) : TH1 :=
  let t1 := { t with entries := t.entries + 1 }
  if 1 ≤ i ∧ i ≤ (t.nbinsX : Int) then
    { t1 with binsX := t1.binsX.set (i - 1).toNat v }
  else t1

/-- TH2::SetBinContent(binx, biny, v). -/
def setBin2 (t : TH1) (i j : Int) (v : Rat) : TH1 :=
  let t1 := { t with entries := t.entries + 1 }
  if (1 ≤ i ∧ i ≤ (t.nbinsX : Int)) ∧ (1 ≤ j ∧ j ≤ (t.nbinsY : Int)) then
    let row := t1.bins2.getD (j - 1).toNat []
    { t1 with bins2 := t1.bins2.set (j - 1).toNat (row.set (i - 1).toNat v) }
  else t1

/-- Whether two histograms have compatible axes for TH1::Add (ROOT
refuses to add histograms whose bin grids differ). -/
def compatible (a b : TH1) : Bool :=
  a.dim = b.dim && a.nbinsX = b.nbinsX && a.nbinsY = b.nbinsY &&
  a.xmin = b.xmin && a.xmax = b.xmax && a.ymin = b.ymin && a.ymax = b.ymax

/-- TH1::Add(other): bin-wise sum into the receiver (entry counts add);
a no-op when the axes are incompatible (ROOT reports and refuses). -/
def add (a b : TH1) : TH1 :=
  if a.compatible b then
    { a with
      binsX := List.zipWith (fun u v => u + v) a.binsX b.binsX
      bins2 := List.zipWith (fun r s => List.zipWith (fun u v => u + v) r s)
        a.bins2 b.bins2
      entries := a.entries + b.entries }
  else a

/-- TH1::GetMean: mean of the x axis computed from in-range bin contents
and bin centers (0 for an empty histogram), as ROOT computes it. -/
def getMean (t : TH1) : Rat :=
  let w := t.binsX.foldl (fun a b => a + b) 0
  let binw := (t.xmax - t.xmin) / (t.nbinsX : Rat)
  let wx := (List.range t.nbinsX).foldl
    (fun a i => a + t.binsX.getD i 0 * (t.xmin + ((i : Rat) + 1/2) * binw)) 0
  if w = 0 then 0 else wx / w

end TH1

/-- Modelled from the spec: a MonitorElement is the live persisted handle
published to the DQM store; for this core it carries the histogram it
renders. -/
structure MonitorElement where
  th1 : TH1
deriving DecidableEq, Repr

/-- Modelled from the spec: AbstractHistogram, the Accumulator — a
running count and/or a bound histogram (a TH1 snapshot and/or a live
MonitorElement handle).  A default-constructed slot is a bare Counter
(count 0, nothing bound). -/
structure AbstractHistogram where
  count : Int
  th1 : Option TH1
  me : Option MonitorElement
deriving DecidableEq, Repr

namespace AbstractHistogram

def empty : AbstractHistogram := ⟨0, none, none⟩

/-- Whether a histogram is booked for this slot (the stage-1 executor
drops samples whose final Key has neither a TH1 nor a MonitorElement). -/
def isBooked (h : AbstractHistogram) : Bool := h.th1.isSome || h.me.isSome

/-- Modelled from the spec: AbstractHistogram::fill(x) — filling a bound
Histogram increments the appropriate bin (in the live handle and the
snapshot, when present); filling a bare Counter increments its count. -/
def fill1 (h : AbstractHistogram) (x : Rat) : AbstractHistogram :=
  if h.isBooked then
    { h with
      me := h.me.map (fun m => ⟨m.th1.fill1 x⟩)
      th1 := h.th1.map (fun t => t.fill1 x) }
  else { h with count := h.count + 1 }

/-- Modelled from the spec: AbstractHistogram::fill(x, y). -/
def fill2 (h : AbstractHistogram) (x y : Rat) : AbstractHistogram :=
  if h.isBooked then
    { h with
      me := h.me.map (fun m => ⟨m.th1.fill2 x y⟩)
      th1 := h.th1.map (fun t => t.fill2 x y) }
  else { h with count := h.count + 1 }

/-- The final fill of executeStep1Spec: fill with 0, 1 or 2 sample values
according to the final dimensionality. -/
def fillDims (h : AbstractHistogram) (dims : Int) (x y : Rat) :
    AbstractHistogram :=
  if dims = 0 then h.fill1 0
  else if dims = 1 then h.fill1 x
  else h.fill2 x y

end AbstractHistogram

/-- The Table: std::map from Values to AbstractHistogram, embedded as an
association list sorted in ascending key order (the map's iteration
order, on which stage-2 EXTEND relies). -/
abbrev Table := List (Values × AbstractHistogram)

namespace Table

/-- map::find (const lookup; never inserts). -/
def find? : Table → Values → Option AbstractHistogram
  | [], _ => none
  | (k0, h0) :: rest, k => if k = k0 then some h0 else find? rest k

/-- The insertion half of map::operator[]: default-construct an entry at
the sorted position when the key is absent. -/
def ensure : Table → Values → Table
  | [], k => [(k, AbstractHistogram.empty)]
  | (k0, h0) :: rest, k =>
    if Values.lt k k0 then (k, AbstractHistogram.empty) :: (k0, h0) :: rest
    else if k = k0 then (k0, h0) :: rest
    else (k0, h0) :: ensure rest k

/-- In-place mutation of the entry a reference/pointer obtained from the
map designates; a no-op when the key is absent (references are only ever
formed for present keys). -/
def modify : Table → Values → (AbstractHistogram → AbstractHistogram) → Table
  | [], _, _ => []
  | (k0, h0) :: rest, k, f =>
    if k = k0 then (k0, f h0) :: rest else (k0, h0) :: modify rest k f

end Table

/-- The error/abort outcomes of the executors: thrown std::out_of_range
from vector::at, and the various assert failures (fatal by design). -/
inductive Err where
  | lookaheadOOB
  | columnOOB
  | assertExtendX
  | assertExtendY
  | assertGroupBy
  | assertIllegalStep
  | assertBooking
  | assertSave
  | nullTH1
deriving DecidableEq, Repr

/-- The mutable state of one executeStep1Spec call: the sample values,
the effective dimensionality, the Key (significantvalues), the Table and
the cache slot (fastpath), the latter as an optional key into the
table (the pointer always designates the entry of the key it was formed
from). -/
structure S1 where
  x : Rat
  y : Rat
  dims : Int
  sv : Values
  t : Table
  fp : Option Values
deriving DecidableEq, Repr

/-- Result of the step loop of executeStep1Spec: an early return from the
per-event counting path, or falling through to the final fill. -/
inductive LoopRes where
  | ret (s : S1)
  | done (s : S1)
deriving DecidableEq, Repr

/-- Outcome of interpreting one step of the loop. -/
inductive StepOut where
  | cont (s : S1)
  | halt (r : Except Err LoopRes)
deriving Repr

/-- One iteration of the step loop of executeStep1Spec, for a step whose
stage matches (nxt is steps.at(i+1), present or not). -/
def stepOne (stage : Stage) (step : Step) (nxt : Option Step) (s : S1) :
    StepOut :=
  match step.type with
  | .SAVE => .cont s
  | .COUNT =>
    let s1 : S1 := { s with x := 0, y := 0, dims := 0 }
    match nxt with
    | none => .halt (.error .lookaheadOOB)
    | some nx =>
      if nx.stage = .STAGE1_2 then
        match s1.fp with
        | none =>
          let t1 := (s1.t.ensure s1.sv).modify s1.sv
            (fun h => { h with count := h.count + 1 })
          .halt (.ok (.ret { s1 with t := t1, fp := some s1.sv }))
        | some k =>
          let t1 := s1.t.modify k (fun h => { h with count := h.count + 1 })
          .halt (.ok (.ret { s1 with t := t1, fp := some k }))
      else .cont s1
  | .EXTEND_X =>
    if s.x = 0 ∧ s.dims ≠ 1 then
      match step.columns with
      | [] => .halt (.error .columnOOB)
      | c :: _ =>
        .cont { s with
          x := (s.sv.idx c : Rat)
          sv := s.sv.erase c
          dims := if s.dims = 0 then 1 else 2 }
    else .halt (.error .assertExtendX)
  | .EXTEND_Y =>
    if s.y = 0 then
      match step.columns with
      | [] => .halt (.error .columnOOB)
      | c :: _ =>
        .cont { s with y := (s.sv.idx c : Rat), sv := s.sv.erase c, dims := 2 }
    else .halt (.error .assertExtendY)
  | .GROUPBY =>
    if stage = .STAGE1_2 then
      let t1 := match s.fp with
        | none => s.t.ensure s.sv
        | some _ => s.t
      let xv : Rat := match s.fp with
        | none => (((t1.find? s.sv).getD AbstractHistogram.empty).count : Rat)
        | some k => (((s.t.find? k).getD AbstractHistogram.empty).count : Rat)
      let t2 := (t1.ensure s.sv).modify s.sv (fun h => { h with count := 0 })
      let newVals := step.columns.foldl (fun acc c => acc.put (s.sv.get c)) ⟨[]⟩
      .cont { s with dims := 1, x := xv, fp := none, t := t2, sv := newVals }
    else .halt (.error .assertGroupBy)
  | .REDUCE => .halt (.error .assertIllegalStep)
  | .CUSTOM => .halt (.error .assertIllegalStep)
  | .NO_TYPE => .halt (.error .assertIllegalStep)

/-- The step loop of executeStep1Spec: iterate the program's steps in
order, acting only on steps whose stage matches. -/
def runSteps (stage : Stage) : List Step → S1 → Except Err LoopRes
  | [], s => .ok (.done s)
  | step :: rest, s =>
    if step.stage = stage then
      match stepOne stage step rest.head? s with
      | .cont s1 => runSteps stage rest s1
      | .halt r => r
    else runSteps stage rest s

/-- The visible outcome of one executeStep1Spec call: the mutated table
and the in/out reference parameters (significantvalues and fastpath). -/
structure S1Out where
  t : Table
  sv : Values
  fp : Option Values
deriving DecidableEq, Repr

/-- HistogramManager::executeStep1Spec.  dims0 is the configured
this->dimensions member; bookUndefined the "book everything" flag. -/
def executeStep1Spec (bookUndefined : Bool) (dims0 : Int) (x y : Rat)
    (sv : Values) (steps : List Step) (t : Table) (stage : Stage)
    (fp : Option Values) : Except Err S1Out :=
  match runSteps stage steps ⟨x, y, dims0, sv, t, fp⟩ with
  | .error e => .error e
  | .ok (.ret s) => .ok ⟨s.t, s.sv, s.fp⟩
  | .ok (.done s) =>
    match s.fp with
    | none =>
      match s.t.find? s.sv with
      | none =>
        if bookUndefined then .error .assertBooking else .ok ⟨s.t, s.sv, none⟩
      | some h =>
        if h.isBooked then
          .ok ⟨s.t.modify s.sv (fun hh => hh.fillDims s.dims s.x s.y),
               s.sv, some s.sv⟩
        else if bookUndefined then .error .assertBooking
        else .ok ⟨s.t, s.sv, none⟩
    | some k =>
      .ok ⟨s.t.modify k (fun hh => hh.fillDims s.dims s.x s.y), s.sv, some k⟩

/-- HistogramManager::fill restricted to one spec, with the cache slot
carried between calls (the manager reuses significantvalues and fastpath
while the source identity is unchanged; all samples here share the same
extracted Key K). -/
def runCached (bu : Bool) (dims0 : Int) (steps : List Step) (K : Values) :
    List (Rat × Rat) → Table → Option Values → Except Err Table
  | [], t, _ => .ok t
  | (x, y) :: rest, t, fp =>
    match executeStep1Spec bu dims0 x y K steps t .STAGE1 fp with
    | .error e => .error e
    | .ok o => runCached bu dims0 steps K rest o.t o.fp

/-- The same fill sequence with the cache slot reset to empty before
every call. -/
def runUncached (bu : Bool) (dims0 : Int) (steps : List Step) (K : Values) :
    List (Rat × Rat) → Table → Except Err Table
  | [], t => .ok t
  | (x, y) :: rest, t =>
    match executeStep1Spec bu dims0 x y K steps t .STAGE1 none with
    | .error e => .error e
    | .ok o => runUncached bu dims0 steps K rest o.t

/-- The per-entry loop of HistogramManager::executePerEventHarvesting:
run the stage-1 executor in STAGE1_2 on each selected key, passing the
entry itself as the cache slot. -/
def harvestGo (bu : Bool) (dims0 : Int) (steps : List Step) :
    List Values → Table → Except Err Table
  | [], t => .ok t
  | k :: ks, t =>
    match executeStep1Spec bu dims0 0 0 k steps t .STAGE1_2 (some k) with
    | .error e => .error e
    | .ok o => harvestGo bu dims0 steps ks o.t

/-- HistogramManager::executePerEventHarvesting restricted to one spec:
process every table entry whose Key size equals the seed column count
(the raw per-event counters).  The C++ iterates the live map while the
executor mutates entries by key; the key list is fixed up front here,
which coincides for the harvesting programs that never insert keys of
seed length during the walk. -/
def executePerEventHarvesting (bu : Bool) (dims0 : Int) (steps : List Step)
    (t : Table) : Except Err Table :=
  let seedLen := match steps.head? with
    | some st => st.columns.length
    | none => 0
  let keys := (t.filter (fun e => e.fst.values.length == seedLen)).map Prod.fst
  harvestGo bu dims0 steps keys t

/-- The booking call of executeSave: iBooker.book1D/book2D from the
snapshot's axes followed by the two setAxisTitle calls. -/
def bookFrom (th : TH1) : TH1 :=
  if th.dim = 1 then
    let m := TH1.mkTH1F th.name th.title th.nbinsX th.xmin th.xmax
    { m with xtitle := th.xtitle, ytitle := th.ytitle }
  else
    let m := TH1.mkTH2F th.name th.title th.nbinsX th.xmin th.xmax
      th.nbinsY th.ymin th.ymax
    { m with xtitle := th.xtitle, ytitle := th.ytitle }

/-- One entry of the executeSave loop: entries with a live handle are
skipped; entries missing both handle and content are fatal when
bookUndefined is set and skipped otherwise; the rest are published
(book, add in the accumulated contents, re-point the snapshot at the
published histogram). -/
def saveEntry (bu : Bool) (e : Values × AbstractHistogram) :
    Except Err (Values × AbstractHistogram) :=
  if e.snd.me.isSome then .ok e
  else if bu ∧ e.snd.th1.isNone then .error .assertSave
  else
    match e.snd.th1 with
    | none => .ok e
    | some th =>
      let merged := (bookFrom th).add th
      .ok (e.fst, { e.snd with me := some ⟨merged⟩, th1 := some merged })

/-- HistogramManager::executeSave. -/
def executeSave (bu : Bool) : Table → Except Err Table
  | [] => .ok []
  | e :: rest =>
    match saveEntry bu e with
    | .error er => .error er
    | .ok e1 =>
      match executeSave bu rest with
      | .error er => .error er
      | .ok r => .ok (e1 :: r)

/-- The Key rebuild shared by GROUPBY: keep only the step's listed
columns. -/
def projKey (cols : List Nat) (k : Values) : Values :=
  cols.foldl (fun acc c => acc.put (k.get c)) ⟨[]⟩

/-- The entry loop of HistogramManager::executeGroupBy: drop columns,
clone the first distribution seen for a new key, add the rest.  A null
snapshot is dereferenced in the C++ (Clone/Add), surfaced as an error
here. -/
def groupByGo (cols : List Nat) :
    List (Values × AbstractHistogram) → Table → Except Err Table
  | [], out => .ok out
  | (k, h) :: rest, out =>
    match h.th1 with
    | none => .error .nullTH1
    | some th =>
      let nv := projKey cols k
      let out1 := out.ensure nv
      let out2 :=
        match ((out1.find? nv).getD AbstractHistogram.empty).th1 with
        | none => out1.modify nv (fun hh => { hh with th1 := some th })
        | some t0 => out1.modify nv (fun hh => { hh with th1 := some (t0.add th) })
      groupByGo cols rest out2

/-- HistogramManager::executeGroupBy (the final t.swap(out) makes the
fresh map the new Table). -/
def executeGroupBy (step : Step) (t : Table) : Except Err Table :=
  groupByGo step.columns t []

/-- The entry loop of HistogramManager::executeReduce.  The second
component collects the edm::LogError messages (reported, non-fatal). -/
def reduceGo (arg : String) :
    List (Values × AbstractHistogram) → Table → List String →
    Except Err (Table × List String)
  | [], out, log => .ok (out, log)
  | (k, h) :: rest, out, log =>
    match h.th1 with
    | none => .error .nullTH1
    | some th =>
      let (q, label, nm, log1) :=
        if arg = "MEAN" then
          (th.getMean, "mean of " ++ th.xtitle, "mean_" ++ th.name, log)
        else if arg = "COUNT" then
          (th.entries, "# of " ++ th.xtitle ++ " entries", "num_" ++ th.name, log)
        else
          ((0 : Rat), "", th.name,
           log ++ ["Reduction " ++ arg ++ " not yet implemented"])
      let newTh := (TH1.mkTH1F nm (th.title ++ ";;" ++ label) 1 0 1).setBin1 1 q
      let out1 := (out.ensure k).modify k (fun hh => { hh with th1 := some newTh })
      reduceGo arg rest out1 log1

/-- HistogramManager::executeReduce. -/
def executeReduce (step : Step) (t : Table) : Except Err (Table × List String) :=
  reduceGo step.arg t [] []

/-- Lookup in the first-pass bin-count map of executeExtend. -/
def nbinsLookup : List (Values × Nat) → Values → Nat
  | [], _ => 0
  | (k0, n) :: rest, k => if k = k0 then n else nbinsLookup rest k

/-- int& n = nbins[new_vals]; n += d. -/
def nbinsBump : List (Values × Nat) → Values → Nat → List (Values × Nat)
  | [], k, d => [(k, d)]
  | (k0, n) :: rest, k, d =>
    if k = k0 then (k0, n + d) :: rest else (k0, n) :: nbinsBump rest k d

/-- First pass of executeExtend: total bin count per resulting key. -/
def nbinsPass (cols : List Nat) (isX : Bool) :
    List (Values × AbstractHistogram) → List (Values × Nat) →
    Except Err (List (Values × Nat))
  | [], m => .ok m
  | (k, h) :: rest, m =>
    match cols with
    | [] => .error .columnOOB
    | c :: _ =>
      match h.th1 with
      | none => .error .nullTH1
      | some th =>
        let nv := k.erase c
        nbinsPass cols isX rest
          (nbinsBump m nv (if isX then th.nbinsX else th.nbinsY))

/-- The 1-D copy loop of executeExtend: for i in 1..nx, write the source
bin into the running fill cursor of the output. -/
def copy1Dgo (src : TH1) : Nat → Nat → TH1 → Int → TH1 × Int
  | 0, _, dst, cur => (dst, cur)
  | rem + 1, i, dst, cur =>
    copy1Dgo src rem (i + 1) (dst.setBin1 cur (src.getBinContent1 (i : Int)))
      (cur + 1)

def copy1D (src dst : TH1) (cur : Int) : TH1 × Int :=
  copy1Dgo src src.nbinsX 1 dst cur

/-- Inner j loop of the EXTEND_X 2-D copy: column i of the source lands
at x position cnt of the output. -/
def copyRowAtX (src : TH1) (iSrc cnt : Int) : Nat → Nat → TH1 → TH1
  | 0, _, dst => dst
  | rem + 1, j, dst =>
    copyRowAtX src iSrc cnt rem (j + 1)
      (dst.setBin2 cnt (j : Int) (src.getBinContent2 iSrc (j : Int)))

def copy2DXgo (src : TH1) : Nat → Nat → TH1 → Int → TH1 × Int
  | 0, _, dst, cnt => (dst, cnt)
  | rem + 1, i, dst, cnt =>
    copy2DXgo src rem (i + 1) (copyRowAtX src (i : Int) cnt src.nbinsY 1 dst)
      (cnt + 1)

/-- Inner i loop of the EXTEND_Y 2-D copy. -/
def copyColAtY (src : TH1) (jSrc cnt : Int) : Nat → Nat → TH1 → TH1
  | 0, _, dst => dst
  | rem + 1, i, dst =>
    copyColAtY src jSrc cnt rem (i + 1)
      (dst.setBin2 (i : Int) cnt (src.getBinContent2 (i : Int) jSrc))

def copy2DYgo (src : TH1) : Nat → Nat → TH1 → Int → TH1 × Int
  | 0, _, dst, cnt => (dst, cnt)
  | rem + 1, j, dst, cnt =>
    copy2DYgo src rem (j + 1) (copyColAtY src (j : Int) cnt src.nbinsX 1 dst)
      (cnt + 1)

/-- Second pass of executeExtend: book the output histogram for a
resulting key the first time it is met (count doubling as the running
fill cursor, starting at 1), then copy the entry's bins at the cursor.
pretty stands for the external geometryInterface.pretty. -/
def extendGo (cols : List Nat) (pretty : Nat → String) (isX : Bool)
    (nb : List (Values × Nat)) :
    List (Values × AbstractHistogram) → Table → Except Err Table
  | [], out => .ok out
  | (k, h) :: rest, out =>
    match cols with
    | [] => .error .columnOOB
    | c :: _ =>
      match h.th1 with
      | none => .error .nullTH1
      | some th =>
        let col0 := (k.get c).fst
        let nv := k.erase c
        let colname := pretty col0
        let out1 := out.ensure nv
        let cur := (out1.find? nv).getD AbstractHistogram.empty
        let (out2, curTh, curCnt) :=
          match cur.th1 with
          | some t0 => (out1, t0, cur.count)
          | none =>
            let n := nbinsLookup nb nv
            let title :=
              if isX then
                th.title ++ " per " ++ colname ++ ";" ++ colname ++ "/" ++
                  th.xtitle ++ ";" ++ th.ytitle
              else
                th.title ++ " per " ++ colname ++ ";" ++ th.xtitle ++ ";" ++
                  colname ++ "/" ++ th.ytitle
            let newTh :=
              if th.dim = 1 ∧ isX then
                TH1.mkTH1F th.name title n (1/2) ((n : Rat) + 1/2)
              else if isX then
                TH1.mkTH2F th.name title n (1/2) ((n : Rat) + 1/2)
                  th.nbinsY (1/2) ((th.nbinsY : Rat) + 1/2)
              else
                TH1.mkTH2F th.name title th.nbinsX (1/2) ((th.nbinsX : Rat) + 1/2)
                  n (1/2) ((n : Rat) + 1/2)
            (out1.modify nv (fun hh => { hh with th1 := some newTh, count := 1 }),
             newTh, 1)
        let (th3, cnt3) :=
          if curTh.dim = 1 then copy1D th curTh curCnt
          else if isX then copy2DXgo th th.nbinsX 1 curTh curCnt
          else copy2DYgo th th.nbinsY 1 curTh curCnt
        let out3 := out2.modify nv
          (fun hh => { hh with th1 := some th3, count := cnt3 })
        extendGo cols pretty isX nb rest out3

/-- HistogramManager::executeExtend. -/
def executeExtend (step : Step) (pretty : Nat → String) (t : Table)
    (isX : Bool) : Except Err Table :=
  match nbinsPass step.columns isX t [] with
  | .error e => .error e
  | .ok nb => extendGo step.columns pretty isX nb t []

/-- The std::map invariant of the embedded Table: entries strictly
ascending in the key order. -/
def SortedT (t : Table) : Prop :=
  List.Pairwise (fun a b => Values.lt a.fst b.fst = true) t

/-- The i-th in-range bin content of an accumulator's snapshot (0 when
no snapshot is bound), used to state bin-wise-sum properties. -/
def binAt (h : AbstractHistogram) (i : Nat) : Rat :=
  match h.th1 with
  | some th => th.binsX.getD i 0
  | none => 0

/-- The i-th bin content stored under a key of a Table (0 when the key
is absent). -/
def outBinAt (t : Table) (k : Values) (i : Nat) : Rat :=
  match t.find? k with
  | some ah => binAt ah i
  | none => 0

/-- The bin-wise sum a GROUPBY step is specified to produce: over every
entry whose key projects to k, the sum of the i-th bin contents. -/
def groupSumBin (cols : List Nat) (l : List (Values × AbstractHistogram))
    (k : Values) (i : Nat) : Rat :=
  ((l.filter (fun e => projKey cols e.fst == k)).map
    (fun e => binAt e.snd i)).sum

/-- One merge step of executeGroupBy at a fixed resulting key: transfer
a copy into a fresh slot, fill an empty slot, or TH1::Add into the
accumulated one. -/
def mergeStep (acc : Option AbstractHistogram) (th : TH1) :
    AbstractHistogram :=
  match acc with
  | none => ⟨0, some th, none⟩
  | some ah =>
    match ah.th1 with
    | none => { ah with th1 := some th }
    | some t0 => { ah with th1 := some (t0.add th) }

/-- The accumulated merge of a list of distributions into one slot. -/
def mergeList (acc : Option AbstractHistogram) :
    List TH1 → Option AbstractHistogram
  | [] => acc
  | th :: rest => mergeList (some (mergeStep acc th)) rest

/-- The snapshots of the entries a GROUPBY step merges into key k, in
table order. -/
def groupInputs (cols : List Nat) (l : List (Values × AbstractHistogram))
    (k : Values) : List TH1 :=
  (l.filter (fun e => projKey cols e.fst == k)).filterMap
    (fun e => e.snd.th1)

/-- Shape hypothesis under which GROUPBY merging is a bin-wise sum:
every entry carries a snapshot whose bin list matches its declared bin
count, and snapshots grouped under one resulting key have compatible
axes (TH1::Add refuses mismatched axes). -/
def GroupUniform (cols : List Nat)
    (l : List (Values × AbstractHistogram)) : Prop :=
  ∀ e ∈ l, ∃ th, e.snd.th1 = some th ∧ th.binsX.length = th.nbinsX ∧
    ∀ e2 ∈ l, projKey cols e.fst = projKey cols e2.fst →
      ∀ th2, e2.snd.th1 = some th2 → th.compatible th2 = true

/-! Concrete inputs used by closed witness and counterexample theorems. -/

def exK : Values := ⟨[(0, 1)]⟩

def exTh : TH1 := TH1.mkTH1F "h" "t" 1 0 1

def exSavedTh : TH1 := (bookFrom exTh).add exTh

def exSavedTable : Table := [(exK, ⟨0, some exSavedTh, some ⟨exSavedTh⟩⟩)]

/-- The state the per-event counting path of a COUNT step leaves behind:
sample values and dimensionality reset, the Counter under the current
Key (or under the cached slot) incremented, the slot set. -/
def countIncremented (s : S1) : S1 :=
  match s.fp with
  | none =>
    let t1 := (s.t.ensure s.sv).modify s.sv
      (fun h => { h with count := h.count + 1 })
    { s with x := 0, y := 0, dims := 0, t := t1, fp := some s.sv }
  | some k =>
    let t1 := s.t.modify k (fun h => { h with count := h.count + 1 })
    { s with x := 0, y := 0, dims := 0, t := t1, fp := some k }

/-- A COUNT step at PER_EVENT whose successor is a SAVE tagged
PER_EVENT_HARVEST (not a GROUPBY). -/
def exProgCountSave : List Step :=
  [⟨SType.COUNT, Stage.STAGE1, [0], ""⟩, ⟨SType.SAVE, Stage.STAGE1_2, [], ""⟩]

/-- A 2-bin accumulated distribution used in reduction examples. -/
def exThR : TH1 :=
  { TH1.mkTH1F "r" "rt;rx" 2 0 2 with binsX := [5, 7], entries := 12 }

/-- What the unsupported-reduction branch of executeReduce produces: a
single-bin histogram holding 0, under the original name. -/
def exRedTh : TH1 := (TH1.mkTH1F "r" ("rt" ++ ";;") 1 0 1).setBin1 1 0

/-- A 1-D two-bin distribution for the EXTEND examples. -/
def exThE2 : TH1 := { TH1.mkTH1F "e" "et" 2 0 4 with binsX := [1, 2] }

/-- A 2-D two-by-two distribution for the mixed-dimensionality EXTEND
example. -/
def exTh2D : TH1 :=
  { TH1.mkTH2F "m" "mt" 2 0 2 2 0 2 with bins2 := [[1, 2], [3, 4]] }

/-- The resulting key shared by the EXTEND example entries once the
extension column 5 is dropped. -/
def exBase : Values := ⟨[(3, 7)]⟩

/-- A table mixing a 1-D and a 2-D distribution under one resulting key
of an EXTEND_X step on column 5. -/
def exMixTable : Table :=
  [(exBase.put (5, 10), ⟨0, some exThE2, none⟩),
   (exBase.put (5, 20), ⟨0, some exTh2D, none⟩)]

/-- The input table of the stage-2 EXTEND_X concatenation property: one
entry per dropped-column value, in the given order. -/
def extInputsTable (base : Values) (c : Nat) (inputs : List (Int × TH1)) :
    Table :=
  inputs.map (fun p => (base.put (c, p.fst), ⟨0, some p.snd, none⟩))

/-- The seed Key of the per-event counting example: both seed columns
defined. -/
def exK2 : Values := ⟨[(0, 1), (1, 2)]⟩

/-- A COUNT step at PER_EVENT immediately followed by a GROUPBY tagged
PER_EVENT_HARVEST that keeps only the first seed column. -/
def progCountGroup : List Step :=
  [⟨SType.COUNT, Stage.STAGE1, [0, 1], ""⟩,
   ⟨SType.GROUPBY, Stage.STAGE1_2, [0], ""⟩]

/-- Two one-bin distributions merged by the GROUPBY example ({A:5, B:3}
grouped into one key yields 8). -/
def exGThA : TH1 := { TH1.mkTH1F "g" "gt" 1 0 4 with binsX := [5] }

def exGThB : TH1 := { TH1.mkTH1F "g" "gt" 1 0 4 with binsX := [3] }

def exGTable : Table :=
  [(⟨[(0, 1), (1, 1)]⟩, ⟨0, some exGThA, none⟩),
   (⟨[(0, 1), (1, 2)]⟩, ⟨0, some exGThB, none⟩)]

def exGOut : Table := [(⟨[(0, 1)]⟩, ⟨0, some (exGThA.add exGThB), none⟩)]

def exGOutRev : Table := [(⟨[(0, 1)]⟩, ⟨0, some (exGThB.add exGThA), none⟩)]

/-- Three 1-D input distributions for the EXTEND_X concatenation
example (2, 3 and 1 bins respectively). -/
def exExtA : TH1 := { TH1.mkTH1F "x" "xt" 2 0 2 with binsX := [10, 20] }

def exExtB : TH1 := { TH1.mkTH1F "x" "xt" 3 0 3 with binsX := [30, 40, 50] }

def exExtC : TH1 := { TH1.mkTH1F "x" "xt" 1 0 1 with binsX := [60] }

/-- The EXTEND_X example inputs, keyed by ascending values 10 < 20 < 30
of the dropped column. -/
def exExtInputs : List (Int × TH1) := [(10, exExtA), (20, exExtB), (30, exExtC)]

/-- The key shared by the EXTEND_X example inputs after the dropped
column is erased. -/
def exExtBase : Values := ⟨[]⟩

/-- What executeExtend actually produces on exMixTable: a 4-bin 1-D
output whose last two bins read 0 (the 2-D input's global bins 1 and 2
are unstored under/overflow cells), published without any error. -/
def exMixOutTh : TH1 :=
  { name := "e"
    title := "et per C"
    xtitle := "C/"
    ytitle := ""
    dim := 1
    nbinsX := 4
    xmin := 1/2
    xmax := 9/2
    nbinsY := 1
    ymin := 0
    ymax := 1
    binsX := [1, 2, 0, 0]
    bins2 := []
    entries := 4 }

/-- The key the step walk ended on (both for the counting early return
and for the fall-through to the final fill). -/
def LoopRes.sv : LoopRes → Values
  | .ret s => s.sv
  | .done s => s.sv

/-- Whether the step walk took the per-event counting early return. -/
def LoopRes.isRet : LoopRes → Bool
  | .ret _ => true
  | .done _ => false

/-- Alignment of the cache slot (fastpath) with the table: the slot is
empty, or it designates exactly the key every successful stage-1 walk
over this table selects, that key's entry is already present (so
map::operator-bracket insertion is a no-op) and, for walks that fall
through to the final fill, booked.  This is the invariant the stage-1
executor maintains on its in/out fastpath argument between calls that
share one extracted Key. -/
def Aligned (steps : List Step) (d0 : Int) (K : Values) (t : Table)
    (fp : Option Values) : Prop :=
  fp = none ∨ ∃ k, fp = some k ∧ Table.ensure t k = t ∧
    (∀ x y s2, runSteps .STAGE1 steps ⟨x, y, d0, K, t, none⟩ =
      .ok (.ret s2) → s2.sv = k) ∧
    (∀ x y s2, runSteps .STAGE1 steps ⟨x, y, d0, K, t, none⟩ =
      .ok (.done s2) → s2.sv = k ∧
        ∃ h, Table.find? t s2.sv = some h ∧ h.isBooked = true)

/-! Supporting lemmas about the key order and the table operations. -/

theorem pairLt_irrefl (p : Nat × Int) : Values.pairLt p p = false := by
  simp [Values.pairLt]

theorem listLt_irrefl (l : List (Nat × Int)) : Values.listLt l l = false := by
  induction l with
  | nil => rfl
  | cons p rest ih => simp [Values.listLt, pairLt_irrefl, ih]

theorem values_lt_irrefl (k : Values) : Values.lt k k = false :=
  listLt_irrefl k.values

theorem find?_modify_self (t : Table) (k : Values)
    (f : AbstractHistogram → AbstractHistogram) :
    (t.modify k f).find? k = (t.find? k).map f := by
  induction t with
  | nil => rfl
  | cons e rest ih =>
    obtain ⟨k0, h0⟩ := e
    by_cases hk : k = k0
    · simp [Table.modify, Table.find?, hk]
    · simp [Table.modify, Table.find?, hk, ih]

theorem find?_modify_ne (t : Table) (k k2 : Values)
    (f : AbstractHistogram → AbstractHistogram) (hne : k2 ≠ k) :
    (t.modify k f).find? k2 = t.find? k2 := by
  induction t with
  | nil => rfl
  | cons e rest ih =>
    obtain ⟨k0, h0⟩ := e
    by_cases hk : k = k0
    · subst hk
      simp [Table.modify, Table.find?, hne, if_neg hne]
    · by_cases hk2 : k2 = k0
      · simp [Table.modify, Table.find?, hk, hk2]
      · simp [Table.modify, Table.find?, hk, hk2, ih]

theorem keys_modify (t : Table) (k : Values)
    (f : AbstractHistogram → AbstractHistogram) :
    (t.modify k f).map Prod.fst = t.map Prod.fst := by
  induction t with
  | nil => rfl
  | cons e rest ih =>
    obtain ⟨k0, h0⟩ := e
    by_cases hk : k = k0
    · simp [Table.modify, hk]
    · simp [Table.modify, hk, ih]

theorem ensure_idem (t : Table) (k : Values) : (t.ensure k).ensure k = t.ensure k := by
  induction t with
  | nil => simp [Table.ensure, values_lt_irrefl]
  | cons e rest ih =>
    obtain ⟨k0, h0⟩ := e
    by_cases hlt : Values.lt k k0
    · simp [Table.ensure, hlt, values_lt_irrefl]
    · by_cases hk : k = k0
      · simp [Table.ensure, hlt, hk, values_lt_irrefl]
      · simp [Table.ensure, hlt, hk, ih]

theorem ensure_self_of_keys (t t2 : Table) (k : Values)
    (hkeys : t.map Prod.fst = t2.map Prod.fst) (hstab : t.ensure k = t) :
    t2.ensure k = t2 := by
  induction t generalizing t2 with
  | nil =>
    cases t2 with
    | nil => exact hstab
    | cons e2 r2 => simp at hkeys
  | cons e rest ih =>
    obtain ⟨k0, h0⟩ := e
    cases t2 with
    | nil => simp at hkeys
    | cons e2 r2 =>
      obtain ⟨k2, h2⟩ := e2
      simp only [List.map_cons, List.cons.injEq] at hkeys
      obtain ⟨hk02, hrest⟩ := hkeys
      subst hk02
      by_cases hlt : Values.lt k k0
      · exfalso
        simp only [Table.ensure, if_pos hlt] at hstab
        have := congrArg List.length hstab
        simp at this
      · by_cases hk : k = k0
        · simp only [Table.ensure, if_neg hlt, if_pos hk]
        · simp only [Table.ensure, if_neg hlt, if_neg hk,
            List.cons.injEq] at hstab
          simp only [Table.ensure, if_neg hlt, if_neg hk,
            ih r2 hrest hstab.2]

theorem isBooked_fill1 (h : AbstractHistogram) (x : Rat)
    (hb : h.isBooked = true) : (h.fill1 x).isBooked = true := by
  simp only [AbstractHistogram.fill1, hb, if_true]
  simp only [AbstractHistogram.isBooked] at hb ⊢
  rcases Bool.or_eq_true_iff.mp hb with h1 | h1
  · cases hth : h.th1 with
    | none => simp [hth] at h1
    | some v => simp [hth]
  · cases hme : h.me with
    | none => simp [hme] at h1
    | some v => simp [hme]

theorem isBooked_fill2 (h : AbstractHistogram) (x y : Rat)
    (hb : h.isBooked = true) : (h.fill2 x y).isBooked = true := by
  simp only [AbstractHistogram.fill2, hb, if_true]
  simp only [AbstractHistogram.isBooked] at hb ⊢
  rcases Bool.or_eq_true_iff.mp hb with h1 | h1
  · cases hth : h.th1 with
    | none => simp [hth] at h1
    | some v => simp [hth]
  · cases hme : h.me with
    | none => simp [hme] at h1
    | some v => simp [hme]

theorem find?_ensure_ne (t : Table) (k k2 : Values) (hne : k2 ≠ k) :
    (t.ensure k).find? k2 = t.find? k2 := by
  induction t with
  | nil => simp [Table.ensure, Table.find?, hne]
  | cons e rest ih =>
    obtain ⟨k0, h0⟩ := e
    by_cases hlt : Values.lt k k0
    · simp [Table.ensure, if_pos hlt, Table.find?, hne]
    · by_cases hk : k = k0
      · simp [Table.ensure, if_neg hlt, if_pos hk]
      · by_cases hk2 : k2 = k0
        · simp [Table.ensure, if_neg hlt, if_neg hk, Table.find?, hk2]
        · simp [Table.ensure, if_neg hlt, if_neg hk, Table.find?, hk2, ih]

theorem find?_ensure_of_none (t : Table) (k : Values)
    (hnone : t.find? k = none) :
    (t.ensure k).find? k = some AbstractHistogram.empty := by
  induction t with
  | nil => simp [Table.ensure, Table.find?]
  | cons e rest ih =>
    obtain ⟨k0, h0⟩ := e
    simp only [Table.find?] at hnone
    by_cases hk : k = k0
    · simp [hk] at hnone
    · rw [if_neg hk] at hnone
      by_cases hlt : Values.lt k k0
      · simp [Table.ensure, if_pos hlt, Table.find?]
      · simp [Table.ensure, if_neg hlt, if_neg hk, Table.find?, hk, ih hnone]

theorem isBooked_fillDims (h : AbstractHistogram) (d : Int) (x y : Rat)
    (hb : h.isBooked = true) : (h.fillDims d x y).isBooked = true := by
  unfold AbstractHistogram.fillDims
  split
  · exact isBooked_fill1 h 0 hb
  · split
    · exact isBooked_fill1 h x hb
    · exact isBooked_fill2 h x y hb

/-- A STAGE1 walk that falls through to the final fill leaves the Table
and the cache slot untouched (only the per-event counting path and the
STAGE1_2 GROUPBY write to them). -/
theorem runSteps_stage1_done_inv :
    ∀ (steps : List Step) (s s2 : S1),
    runSteps .STAGE1 steps s = .ok (.done s2) → s2.t = s.t ∧ s2.fp = s.fp := by
  intro steps
  induction steps with
  | nil =>
    intro s s2 hrun
    simp only [runSteps, Except.ok.injEq, LoopRes.done.injEq] at hrun
    subst hrun
    exact ⟨rfl, rfl⟩
  | cons st rest ih =>
    intro s s2 hrun
    simp only [runSteps] at hrun
    by_cases hst : st.stage = Stage.STAGE1
    · rw [if_pos hst] at hrun
      cases htype : st.type with
      | SAVE =>
        simp only [stepOne, htype] at hrun
        exact ih s s2 hrun
      | COUNT =>
        simp only [stepOne, htype] at hrun
        cases hnx : rest.head? with
        | none => simp [hnx] at hrun
        | some nx =>
          simp only [hnx] at hrun
          by_cases hnxs : nx.stage = Stage.STAGE1_2
          · rw [if_pos hnxs] at hrun
            cases hfp : s.fp <;> simp [hfp] at hrun
          · rw [if_neg hnxs] at hrun
            simpa using ih _ s2 hrun
      | EXTEND_X =>
        simp only [stepOne, htype] at hrun
        by_cases hc : s.x = 0 ∧ s.dims ≠ 1
        · rw [if_pos hc] at hrun
          cases hcols : st.columns with
          | nil => simp [hcols] at hrun
          | cons c cs =>
            simp only [hcols] at hrun
            simpa using ih _ s2 hrun
        · rw [if_neg hc] at hrun
          simp at hrun
      | EXTEND_Y =>
        simp only [stepOne, htype] at hrun
        by_cases hc : s.y = 0
        · rw [if_pos hc] at hrun
          cases hcols : st.columns with
          | nil => simp [hcols] at hrun
          | cons c cs =>
            simp only [hcols] at hrun
            simpa using ih _ s2 hrun
        · rw [if_neg hc] at hrun
          simp at hrun
      | GROUPBY => simp [stepOne, htype] at hrun
      | REDUCE => simp [stepOne, htype] at hrun
      | CUSTOM => simp [stepOne, htype] at hrun
      | NO_TYPE => simp [stepOne, htype] at hrun
    · rw [if_neg hst] at hrun
      exact ih s s2 hrun

/-- A STAGE1 walk that takes the per-event counting path returns with
the cache slot pointing at the key it incremented, the Table updated by
exactly that ensure-and-increment. -/
theorem runSteps_stage1_ret_shape :
    ∀ (steps : List Step) (s s2 : S1),
    s.fp = none →
    runSteps .STAGE1 steps s = .ok (.ret s2) →
    s2.fp = some s2.sv ∧
      s2.t = Table.modify (Table.ensure s.t s2.sv) s2.sv
        (fun h => { h with count := h.count + 1 }) := by
  intro steps
  induction steps with
  | nil =>
    intro s s2 _ hrun
    simp [runSteps] at hrun
  | cons st rest ih =>
    intro s s2 hfp hrun
    simp only [runSteps] at hrun
    by_cases hst : st.stage = Stage.STAGE1
    · rw [if_pos hst] at hrun
      cases htype : st.type with
      | SAVE =>
        simp only [stepOne, htype] at hrun
        exact ih s s2 hfp hrun
      | COUNT =>
        simp only [stepOne, htype] at hrun
        cases hnx : rest.head? with
        | none => simp [hnx] at hrun
        | some nx =>
          simp only [hnx] at hrun
          by_cases hnxs : nx.stage = Stage.STAGE1_2
          · rw [if_pos hnxs] at hrun
            simp only [hfp] at hrun
            simp only [Except.ok.injEq, LoopRes.ret.injEq] at hrun
            subst hrun
            exact ⟨rfl, rfl⟩
          · rw [if_neg hnxs] at hrun
            simpa using ih _ s2 (by simp [hfp]) hrun
      | EXTEND_X =>
        simp only [stepOne, htype] at hrun
        by_cases hc : s.x = 0 ∧ s.dims ≠ 1
        · rw [if_pos hc] at hrun
          cases hcols : st.columns with
          | nil => simp [hcols] at hrun
          | cons c cs =>
            simp only [hcols] at hrun
            simpa using ih _ s2 (by simp [hfp]) hrun
        · rw [if_neg hc] at hrun
          simp at hrun
      | EXTEND_Y =>
        simp only [stepOne, htype] at hrun
        by_cases hc : s.y = 0
        · rw [if_pos hc] at hrun
          cases hcols : st.columns with
          | nil => simp [hcols] at hrun
          | cons c cs =>
            simp only [hcols] at hrun
            simpa using ih _ s2 (by simp [hfp]) hrun
        · rw [if_neg hc] at hrun
          simp at hrun
      | GROUPBY => simp [stepOne, htype] at hrun
      | REDUCE => simp [stepOne, htype] at hrun
      | CUSTOM => simp [stepOne, htype] at hrun
      | NO_TYPE => simp [stepOne, htype] at hrun
    · rw [if_neg hst] at hrun
      exact ih s s2 hfp hrun

/-- The step walk can only throw the COUNT lookahead out_of_range when a
stage-matching COUNT step sits last in the program. -/
theorem runSteps_no_lookahead :
    ∀ (steps : List Step) (stage : Stage),
    (∀ c, steps.getLast? = some c → ¬(c.type = SType.COUNT ∧ c.stage = stage)) →
    ∀ s : S1, runSteps stage steps s ≠ .error .lookaheadOOB := by
  intro steps
  induction steps with
  | nil =>
    intro stage _ s hcontra
    simp [runSteps] at hcontra
  | cons st rest ih =>
    intro stage hlast s hcontra
    have hlast2 : ∀ c, rest.getLast? = some c →
        ¬(c.type = SType.COUNT ∧ c.stage = stage) := by
      intro c hc
      cases rest with
      | nil => simp at hc
      | cons r rs =>
        exact hlast c (by rw [List.getLast?_cons_cons]; exact hc)
    simp only [runSteps] at hcontra
    by_cases hst : st.stage = stage
    · rw [if_pos hst] at hcontra
      cases htype : st.type with
      | SAVE =>
        simp only [stepOne, htype] at hcontra
        exact ih stage hlast2 _ hcontra
      | COUNT =>
        simp only [stepOne, htype] at hcontra
        cases hrest : rest with
        | nil =>
          subst hrest
          exact hlast st (by simp) ⟨htype, hst⟩
        | cons nx rs =>
          subst hrest
          simp only [List.head?_cons] at hcontra
          by_cases hnxs : nx.stage = Stage.STAGE1_2
          · rw [if_pos hnxs] at hcontra
            cases hfp : s.fp <;> simp [hfp] at hcontra
          · rw [if_neg hnxs] at hcontra
            exact ih stage hlast2 _ hcontra
      | EXTEND_X =>
        simp only [stepOne, htype] at hcontra
        by_cases hc : s.x = 0 ∧ s.dims ≠ 1
        · rw [if_pos hc] at hcontra
          cases hcols : st.columns with
          | nil => simp [hcols] at hcontra
          | cons c cs =>
            simp only [hcols] at hcontra
            exact ih stage hlast2 _ hcontra
        · rw [if_neg hc] at hcontra
          simp at hcontra
      | EXTEND_Y =>
        simp only [stepOne, htype] at hcontra
        by_cases hc : s.y = 0
        · rw [if_pos hc] at hcontra
          cases hcols : st.columns with
          | nil => simp [hcols] at hcontra
          | cons c cs =>
            simp only [hcols] at hcontra
            exact ih stage hlast2 _ hcontra
        · rw [if_neg hc] at hcontra
          simp at hcontra
      | GROUPBY =>
        simp only [stepOne, htype] at hcontra
        by_cases hg : stage = Stage.STAGE1_2
        · rw [if_pos hg] at hcontra
          exact ih stage hlast2 _ hcontra
        · rw [if_neg hg] at hcontra
          simp at hcontra
      | REDUCE => simp [stepOne, htype] at hcontra
      | CUSTOM => simp [stepOne, htype] at hcontra
      | NO_TYPE => simp [stepOne, htype] at hcontra
    · rw [if_neg hst] at hcontra
      exact ih stage hlast2 _ hcontra

/-- C10: in the stage-1 executor, the steps.at(i+1) lookahead of a
stage-matching COUNT step is in bounds — the out_of_range branch is
unreachable for every input — whenever no stage-matching COUNT step is
the last step of its program; and a program that does end in a
stage-matching COUNT step reaches the out_of_range failure (witnessed by
a concrete program of one COUNT step). -/
theorem executeStep1Spec_count_lookahead_safety :
    (∀ (steps : List Step) (stage : Stage),
      (∀ c, steps.getLast? = some c →
        ¬(c.type = SType.COUNT ∧ c.stage = stage)) →
      ∀ (bu : Bool) (dims0 : Int) (x y : Rat) (sv : Values) (t : Table)
        (fp : Option Values),
      executeStep1Spec bu dims0 x y sv steps t stage fp ≠
        .error .lookaheadOOB)
    ∧ executeStep1Spec false 0 0 0 ⟨[]⟩ [⟨SType.COUNT, Stage.STAGE1, [], ""⟩]
        [] Stage.STAGE1 none = .error Err.lookaheadOOB := by
  constructor
  · intro steps stage hlast bu dims0 x y sv t fp hcontra
    have hrs := runSteps_no_lookahead steps stage hlast ⟨x, y, dims0, sv, t, fp⟩
    simp only [executeStep1Spec] at hcontra
    cases hr : runSteps stage steps ⟨x, y, dims0, sv, t, fp⟩ with
    | error e =>
      rw [hr] at hcontra
      simp only [Except.error.injEq] at hcontra
      exact hrs (by rw [hr, hcontra])
    | ok r =>
      rw [hr] at hcontra
      cases r with
      | ret s2 => simp at hcontra
      | done s2 =>
        cases hfp : s2.fp with
        | none =>
          simp only [hfp] at hcontra
          cases hfind : Table.find? s2.t s2.sv with
          | none =>
            simp only [hfind] at hcontra
            split at hcontra <;> simp at hcontra
          | some h =>
            simp only [hfind] at hcontra
            split at hcontra
            · simp at hcontra
            · split at hcontra <;> simp at hcontra
        | some k =>
          simp [hfp] at hcontra
  · rfl

/-- C7: after the stage-1 step walk, with an empty cache slot and a
final Key with no booked histogram, the sample is silently dropped (the
Table is returned exactly as it was, no entry created) when
book-everything mode is off, and the booking assert fires (fatal) when
it is on. -/
theorem executeStep1Spec_unbooked_drop_or_fatal (bu : Bool) (dims0 : Int)
    (x y : Rat) (sv : Values) (steps : List Step) (t : Table) (s2 : S1)
    (hrun : runSteps .STAGE1 steps ⟨x, y, dims0, sv, t, none⟩ = .ok (.done s2))
    (hunb : ∀ h, Table.find? t s2.sv = some h → h.isBooked = false) :
    (bu = false → executeStep1Spec bu dims0 x y sv steps t .STAGE1 none =
      .ok ⟨t, s2.sv, none⟩)
    ∧ (bu = true → executeStep1Spec bu dims0 x y sv steps t .STAGE1 none =
      .error .assertBooking) := by
  obtain ⟨ht, hfp⟩ := runSteps_stage1_done_inv steps _ s2 hrun
  simp only [executeStep1Spec, hrun, hfp, ht]
  cases hfind : Table.find? t s2.sv with
  | none =>
    constructor
    · intro hbu; subst hbu; simp
    · intro hbu; subst hbu; simp
  | some h =>
    have hb := hunb h hfind
    constructor
    · intro hbu; subst hbu; simp [hb]
    · intro hbu; subst hbu; simp [hb]

/-- Closed instantiation of executeStep1Spec_unbooked_drop_or_fatal: an
empty program over a table holding only an unbooked counter at the
sample's Key. -/
theorem executeStep1Spec_unbooked_drop_or_fatal_witness :
    (runSteps .STAGE1 []
      ⟨0, 0, 0, ⟨[(0, 1)]⟩, [(⟨[(0, 1)]⟩, AbstractHistogram.empty)], none⟩ =
      .ok (.done ⟨0, 0, 0, ⟨[(0, 1)]⟩,
        [(⟨[(0, 1)]⟩, AbstractHistogram.empty)], none⟩))
    ∧ (executeStep1Spec false 0 0 0 ⟨[(0, 1)]⟩ []
        [(⟨[(0, 1)]⟩, AbstractHistogram.empty)] .STAGE1 none =
        .ok ⟨[(⟨[(0, 1)]⟩, AbstractHistogram.empty)], ⟨[(0, 1)]⟩, none⟩)
    ∧ (executeStep1Spec true 0 0 0 ⟨[(0, 1)]⟩ []
        [(⟨[(0, 1)]⟩, AbstractHistogram.empty)] .STAGE1 none =
        .error .assertBooking) := by
  refine ⟨rfl, ?_, ?_⟩
  · exact (executeStep1Spec_unbooked_drop_or_fatal false 0 0 0 ⟨[(0, 1)]⟩ []
      [(⟨[(0, 1)]⟩, AbstractHistogram.empty)] _ rfl
      (by intro h hh; simp [Table.find?] at hh; subst hh; rfl)).1 rfl
  · exact (executeStep1Spec_unbooked_drop_or_fatal true 0 0 0 ⟨[(0, 1)]⟩ []
      [(⟨[(0, 1)]⟩, AbstractHistogram.empty)] _ rfl
      (by intro h hh; simp [Table.find?] at hh; subst hh; rfl)).2 rfl

/-- One executeSave pass leaves every entry in a state the next pass
skips. -/
theorem saveEntry_stable (bu : Bool) (e e1 : Values × AbstractHistogram)
    (h : saveEntry bu e = .ok e1) : saveEntry bu e1 = .ok e1 := by
  unfold saveEntry at h ⊢
  by_cases hme : e.snd.me.isSome
  · rw [if_pos hme] at h
    simp only [Except.ok.injEq] at h
    subst h
    rw [if_pos hme]
  · rw [if_neg hme] at h
    by_cases hbu : bu ∧ e.snd.th1.isNone
    · rw [if_pos hbu] at h
      simp at h
    · rw [if_neg hbu] at h
      cases hth : e.snd.th1 with
      | none =>
        simp only [hth] at h
        simp only [Except.ok.injEq] at h
        subst h
        rw [if_neg hme, if_neg hbu]
        simp [hth]
      | some th =>
        simp only [hth] at h
        simp only [Except.ok.injEq] at h
        subst h
        simp

/-- C9: executeSave is idempotent — a second SAVE pass over the table a
first pass produced returns it unchanged (every entry now holding a live
handle, or skippable, exactly as the first pass left it). -/
theorem executeSave_idempotent (bu : Bool) :
    ∀ (t t2 : Table), executeSave bu t = .ok t2 → executeSave bu t2 = .ok t2 := by
  intro t
  induction t with
  | nil =>
    intro t2 h
    simp only [executeSave, Except.ok.injEq] at h
    subst h
    rfl
  | cons e rest ih =>
    intro t2 h
    simp only [executeSave] at h
    cases hse : saveEntry bu e with
    | error er => rw [hse] at h; simp at h
    | ok e1 =>
      rw [hse] at h
      cases hrec : executeSave bu rest with
      | error er => rw [hrec] at h; simp at h
      | ok r =>
        rw [hrec] at h
        simp only [Except.ok.injEq] at h
        subst h
        simp only [executeSave, saveEntry_stable bu e e1 hse, ih r hrec]

/-- Closed instantiation of executeSave_idempotent: a table of one entry
carrying an accumulated snapshot and no live handle. -/
theorem executeSave_idempotent_witness :
    (executeSave false [(exK, ⟨0, some exTh, none⟩)] = .ok exSavedTable)
    ∧ (executeSave false exSavedTable = .ok exSavedTable) :=
  ⟨by rfl,
   executeSave_idempotent false [(exK, ⟨0, some exTh, none⟩)] exSavedTable
     (by rfl)⟩

/-- Closed instantiation of the safety half of
executeStep1Spec_count_lookahead_safety at a concrete program. -/
theorem executeStep1Spec_count_lookahead_safety_witness :
    (∀ c, [Step.mk SType.SAVE Stage.STAGE1 [] ""].getLast? = some c →
      ¬(c.type = SType.COUNT ∧ c.stage = Stage.STAGE1))
    ∧ executeStep1Spec false 0 0 0 ⟨[]⟩ [⟨SType.SAVE, Stage.STAGE1, [], ""⟩]
        [] Stage.STAGE1 none ≠ .error .lookaheadOOB :=
  ⟨by intro c hc; simp at hc; subst hc; simp,
   executeStep1Spec_count_lookahead_safety.1
     [⟨SType.SAVE, Stage.STAGE1, [], ""⟩] Stage.STAGE1
     (by intro c hc; simp at hc; subst hc; simp)
     false 0 0 0 ⟨[]⟩ [] none⟩

/-- C3 counterexample: a COUNT step whose successor is a SAVE tagged
PER_EVENT_HARVEST (not a GROUPBY) still takes the per-event increment
path: the Counter under the current Key is incremented and the executor
returns, leaving the booked histogram unfilled — while the claim
predicts reset-and-continue, which would have filled the histogram. -/
theorem stepOne_count_not_groupby_cex :
    (executeStep1Spec false 0 0 0 exK exProgCountSave
        [(exK, ⟨0, none, some ⟨exTh⟩⟩)] .STAGE1 none =
      .ok ⟨[(exK, ⟨1, none, some ⟨exTh⟩⟩)], exK, some exK⟩)
    ∧ (executeStep1Spec false 0 0 0 exK exProgCountSave
        [(exK, ⟨0, none, some ⟨exTh⟩⟩)] .STAGE1 none ≠
      .ok ⟨[(exK, ⟨0, none, some ⟨exTh.fill1 0⟩⟩)], exK, some exK⟩) := by
  have h1 : executeStep1Spec false 0 0 0 exK exProgCountSave
      [(exK, ⟨0, none, some ⟨exTh⟩⟩)] .STAGE1 none =
      .ok ⟨[(exK, ⟨1, none, some ⟨exTh⟩⟩)], exK, some exK⟩ := rfl
  refine ⟨h1, ?_⟩
  rw [h1]
  intro hcon
  have h2 := Except.ok.inj hcon
  exact absurd h2 (by decide)

/-- C3 amended: the per-event increment path of a stage-matching COUNT
step is taken exactly when the immediately following step carries the
PER_EVENT_HARVEST stage tag, whatever its type; for a successor of any
other stage the step only resets x, y to 0 and dimensionality to 0 and
the walk continues. -/
theorem stepOne_count_increment_iff (stage : Stage) (step : Step) (nxt : Step)
    (s : S1) (htype : step.type = SType.COUNT) :
    (nxt.stage = Stage.STAGE1_2 →
      stepOne stage step (some nxt) s = .halt (.ok (.ret (countIncremented s))))
    ∧ (nxt.stage ≠ Stage.STAGE1_2 →
      stepOne stage step (some nxt) s =
        .cont { s with x := 0, y := 0, dims := 0 }) := by
  constructor
  · intro hnx
    cases hfp : s.fp with
    | none => simp [stepOne, htype, hnx, countIncremented, hfp]
    | some k => simp [stepOne, htype, hnx, countIncremented, hfp]
  · intro hnx
    simp [stepOne, htype, if_neg hnx]

/-- Closed instantiation of stepOne_count_increment_iff at a COUNT step
followed by a SAVE at PER_EVENT_HARVEST and by a SAVE at POST_RUN. -/
theorem stepOne_count_increment_iff_witness :
    ((⟨SType.COUNT, Stage.STAGE1, [0], ""⟩ : Step).type = SType.COUNT)
    ∧ (stepOne Stage.STAGE1 ⟨SType.COUNT, Stage.STAGE1, [0], ""⟩
        (some ⟨SType.SAVE, Stage.STAGE1_2, [], ""⟩)
        ⟨3, 4, 1, exK, [], none⟩ =
      .halt (.ok (.ret
        { x := 0, y := 0, dims := 0, sv := exK,
          t := [(exK, ⟨1, none, none⟩)], fp := some exK })))
    ∧ (stepOne Stage.STAGE1 ⟨SType.COUNT, Stage.STAGE1, [0], ""⟩
        (some ⟨SType.SAVE, Stage.STAGE2, [], ""⟩)
        ⟨3, 4, 1, exK, [], none⟩ =
      .cont ⟨0, 0, 0, exK, [], none⟩) :=
  ⟨rfl,
   (stepOne_count_increment_iff Stage.STAGE1 ⟨SType.COUNT, Stage.STAGE1, [0], ""⟩
      ⟨SType.SAVE, Stage.STAGE1_2, [], ""⟩ ⟨3, 4, 1, exK, [], none⟩ rfl).1 rfl,
   (stepOne_count_increment_iff Stage.STAGE1 ⟨SType.COUNT, Stage.STAGE1, [0], ""⟩
      ⟨SType.SAVE, Stage.STAGE2, [], ""⟩ ⟨3, 4, 1, exK, [], none⟩ rfl).2
     (by decide)⟩

/-- C4 counterexample: a REDUCE step with an unsupported reduction name
reports a message and returns normally, but the entry's distribution is
not left unreduced — it is replaced by a fresh single-bin histogram
holding 0. -/
theorem executeReduce_unknown_cex :
    (executeReduce ⟨SType.REDUCE, Stage.STAGE2, [], "MAX"⟩
        [(exK, ⟨0, some exThR, none⟩)] =
      .ok ([(exK, ⟨0, some exRedTh, none⟩)],
           ["Reduction MAX not yet implemented"]))
    ∧ exRedTh ≠ exThR := by
  constructor
  · rfl
  · decide

/-- The unsupported-reduction behaviour of reduceGo over a table of
distinct keys, all carrying a snapshot. -/
theorem reduceGo_unknown_spec (arg : String)
    (harg1 : arg ≠ "MEAN") (harg2 : arg ≠ "COUNT") :
    ∀ (l : List (Values × AbstractHistogram)) (out : Table) (log : List String),
    (∀ e ∈ l, e.snd.th1.isSome = true) →
    List.Pairwise (fun a b => a.fst ≠ b.fst) l →
    (∀ e ∈ l, Table.find? out e.fst = none) →
    ∃ outF logF, reduceGo arg l out log = .ok (outF, logF) ∧
      logF = log ++ l.map (fun _ => "Reduction " ++ arg ++ " not yet implemented") ∧
      (∀ k2, Table.find? out k2 ≠ none →
        Table.find? outF k2 = Table.find? out k2) ∧
      (∀ e ∈ l, ∀ th, e.snd.th1 = some th →
        Table.find? outF e.fst =
          some ⟨0, some ((TH1.mkTH1F th.name (th.title ++ ";;") 1 0 1).setBin1 1 0),
            none⟩) := by
  intro l
  induction l with
  | nil =>
    intro out log _ _ _
    refine ⟨out, log, rfl, by simp, fun k2 _ => rfl, by simp⟩
  | cons e rest ih =>
    intro out log hth hpw hfresh
    obtain ⟨k, h⟩ := e
    cases hth1 : h.th1 with
    | none =>
      exfalso
      have := hth (k, h) (List.mem_cons_self _ _)
      rw [hth1] at this
      simp at this
    | some th =>
      have hkfresh : Table.find? out k = none :=
        hfresh (k, h) (List.mem_cons_self _ _)
      simp only [reduceGo, hth1, if_neg harg1, if_neg harg2,
        String.append_empty]
      set newTh := (TH1.mkTH1F th.name (th.title ++ ";;") 1 0 1).setBin1 1 0 with hnew
      set out1 := (out.ensure k).modify k
        (fun hh => { hh with th1 := some newTh }) with hout1
      have hfind1 : Table.find? out1 k = some ⟨0, some newTh, none⟩ := by
        rw [hout1, find?_modify_self, find?_ensure_of_none out k hkfresh]
        rfl
      have hother : ∀ k2, k2 ≠ k → Table.find? out1 k2 = Table.find? out k2 := by
        intro k2 hne
        rw [hout1, find?_modify_ne _ _ _ _ hne, find?_ensure_ne _ _ _ hne]
      have hrest := ih out1
        (log ++ ["Reduction " ++ arg ++ " not yet implemented"])
        (fun e2 he2 => hth e2 (List.mem_cons_of_mem _ he2))
        (List.pairwise_cons.mp hpw).2
        (by
          intro e2 he2
          have hne : e2.fst ≠ k := by
            have := (List.pairwise_cons.mp hpw).1 e2 he2
            exact fun hcontra => this hcontra.symm
          rw [hother e2.fst hne]
          exact hfresh e2 (List.mem_cons_of_mem _ he2))
      obtain ⟨outF, logF, hrun, hlog, hpres, hdone⟩ := hrest
      refine ⟨outF, logF, hrun, by simpa using hlog, ?_, ?_⟩
      · intro k2 hk2
        have hne : k2 ≠ k := fun hc => hk2 (hc ▸ hkfresh)
        rw [hpres k2 (by rw [hother k2 hne]; exact hk2), hother k2 hne]
      · intro e2 he2 th2 hth2
        rcases List.mem_cons.mp he2 with heq | hmem
        · subst heq
          simp only at hth2
          rw [hth1] at hth2
          injection hth2 with hth2
          subst hth2
          rw [hpres k (by rw [hfind1]; simp), hfind1]
        · exact hdone e2 hmem th2 hth2

/-- C4 amended: for every Table entry processed by a stage-2 REDUCE step
whose reduction name is neither MEAN nor COUNT, an error message is
reported (one per entry) and the call is non-fatal, but the entry is not
left unreduced: its distribution is replaced by a fresh single-bin
histogram holding 0 under the entry's original name. -/
theorem executeReduce_unknown_reported_and_replaced (st : Stage)
    (cols : List Nat) (arg : String) (t : Table)
    (harg1 : arg ≠ "MEAN") (harg2 : arg ≠ "COUNT")
    (hth : ∀ e ∈ t, e.snd.th1.isSome = true)
    (hkeys : List.Pairwise (fun a b => a.fst ≠ b.fst) t) :
    ∃ outF logF,
      executeReduce ⟨SType.REDUCE, st, cols, arg⟩ t = .ok (outF, logF) ∧
      logF = t.map (fun _ => "Reduction " ++ arg ++ " not yet implemented") ∧
      ∀ e ∈ t, ∀ th, e.snd.th1 = some th →
        Table.find? outF e.fst =
          some ⟨0, some ((TH1.mkTH1F th.name (th.title ++ ";;") 1 0 1).setBin1 1 0),
            none⟩ := by
  obtain ⟨outF, logF, hrun, hlog, _, hdone⟩ :=
    reduceGo_unknown_spec arg harg1 harg2 t [] []
      hth hkeys (fun e _ => rfl)
  exact ⟨outF, logF, hrun, by simpa using hlog, hdone⟩

/-- C8 counterexample: a stage-2 EXTEND_X step over two entries that map
to one resulting key with mixed dimensionality (one 1-D, one 2-D
distribution) is not a fatal error — executeExtend completes and
publishes a merged output (shaped after the first input in key order). -/
theorem executeExtend_mixed_dims_cex :
    exThE2.dim = 1 ∧ exTh2D.dim = 2
    ∧ (exBase.put (5, 10)).erase 5 = exBase
    ∧ (exBase.put (5, 20)).erase 5 = exBase
    ∧ executeExtend ⟨SType.EXTEND_X, Stage.STAGE2, [5], ""⟩ (fun _ => "C")
        exMixTable true = .ok [(exBase, ⟨5, some exMixOutTh, none⟩)] := by
  refine ⟨rfl, rfl, by decide, by decide, ?_⟩
  with_unfolding_all rfl

/-- The first pass of executeExtend never aborts when the step names a
column and every entry carries a snapshot. -/
theorem nbinsPass_ok (isX : Bool) :
    ∀ (cols : List Nat) (l : List (Values × AbstractHistogram))
      (m : List (Values × Nat)),
    cols ≠ [] → (∀ e ∈ l, e.snd.th1.isSome = true) →
    ∃ nb, nbinsPass cols isX l m = .ok nb := by
  intro cols l
  induction l with
  | nil => intro m _ _; exact ⟨m, rfl⟩
  | cons e rest ih =>
    intro m hcols hth
    obtain ⟨k, h⟩ := e
    cases hcs : cols with
    | nil => exact absurd hcs hcols
    | cons c cs =>
      cases hth1 : h.th1 with
      | none =>
        have := hth (k, h) (List.mem_cons_self _ _)
        rw [hth1] at this
        simp at this
      | some th =>
        subst hcs
        simp only [nbinsPass, hth1]
        exact ih _ hcols (fun e2 he2 => hth e2 (List.mem_cons_of_mem _ he2))

/-- The second pass of executeExtend never aborts when the step names a
column and every entry carries a snapshot — dimensionality is never
checked. -/
theorem extendGo_ok (pretty : Nat → String) (isX : Bool)
    (nb : List (Values × Nat)) :
    ∀ (cols : List Nat) (l : List (Values × AbstractHistogram)) (out : Table),
    cols ≠ [] → (∀ e ∈ l, e.snd.th1.isSome = true) →
    ∃ out2, extendGo cols pretty isX nb l out = .ok out2 := by
  intro cols l
  induction l with
  | nil => intro out _ _; exact ⟨out, rfl⟩
  | cons e rest ih =>
    intro out hcols hth
    obtain ⟨k, h⟩ := e
    cases hcs : cols with
    | nil => exact absurd hcs hcols
    | cons c cs =>
      cases hth1 : h.th1 with
      | none =>
        have := hth (k, h) (List.mem_cons_self _ _)
        rw [hth1] at this
        simp at this
      | some th =>
        subst hcs
        simp only [extendGo, hth1]
        exact ih _ hcols (fun e2 he2 => hth e2 (List.mem_cons_of_mem _ he2))

/-- C8 amended: a stage-2 EXTEND step whose entries all carry snapshots
and whose step names a column always completes without a fatal error,
whatever the dimensionalities of the inputs — mixing 1-D and 2-D under
one resulting key is not detected (the only fatal conditions are a
missing snapshot and an empty column list). -/
theorem executeExtend_no_dim_check (step : Step) (pretty : Nat → String)
    (t : Table) (isX : Bool)
    (hcols : step.columns ≠ [])
    (hth : ∀ e ∈ t, e.snd.th1.isSome = true) :
    ∃ out, executeExtend step pretty t isX = .ok out := by
  obtain ⟨nb, hnb⟩ := nbinsPass_ok isX step.columns t [] hcols hth
  obtain ⟨out2, hout2⟩ := extendGo_ok pretty isX nb step.columns t [] hcols hth
  exact ⟨out2, by simp only [executeExtend, hnb, hout2]⟩

/-- Closed instantiation of executeExtend_no_dim_check at the
mixed-dimensionality table. -/
theorem executeExtend_no_dim_check_witness :
    ((⟨SType.EXTEND_X, Stage.STAGE2, [5], ""⟩ : Step).columns ≠ [])
    ∧ (∀ e ∈ exMixTable, e.snd.th1.isSome = true)
    ∧ (∃ out, executeExtend ⟨SType.EXTEND_X, Stage.STAGE2, [5], ""⟩
        (fun c => toString c) exMixTable true = .ok out) :=
  ⟨by decide, by decide,
   executeExtend_no_dim_check ⟨SType.EXTEND_X, Stage.STAGE2, [5], ""⟩
     (fun c => toString c) exMixTable true (by decide) (by decide)⟩

theorem pairLt_asymm (p q : Nat × Int) (h : Values.pairLt p q = true) :
    Values.pairLt q p = false := by
  simp only [Values.pairLt, Bool.or_eq_true, decide_eq_true_eq,
    Bool.and_eq_true] at h
  simp only [Values.pairLt, Bool.or_eq_false_iff, decide_eq_false_iff_not,
    Bool.and_eq_false_iff, Bool.not_eq_true]
  omega

theorem pairLt_conn (p q : Nat × Int) (h1 : Values.pairLt p q = false)
    (h2 : Values.pairLt q p = false) : p = q := by
  simp only [Values.pairLt, Bool.or_eq_false_iff, decide_eq_false_iff_not,
    Bool.and_eq_false_iff, Bool.not_eq_true, decide_eq_true_eq] at h1 h2
  have hfst : p.fst = q.fst := by omega
  have hsnd : p.snd = q.snd := by
    rcases h1.2 with hc | hc
    · exact absurd hfst hc
    · rcases h2.2 with hd | hd
      · exact absurd hfst.symm hd
      · omega
  exact Prod.ext hfst hsnd

theorem pairLt_trans (p q r : Nat × Int) (h1 : Values.pairLt p q = true)
    (h2 : Values.pairLt q r = true) : Values.pairLt p r = true := by
  simp only [Values.pairLt, Bool.or_eq_true, decide_eq_true_eq,
    Bool.and_eq_true] at h1 h2 ⊢
  omega

theorem listLt_asymm :
    ∀ (l1 l2 : List (Nat × Int)), Values.listLt l1 l2 = true →
    Values.listLt l2 l1 = false := by
  intro l1
  induction l1 with
  | nil =>
    intro l2 h
    cases l2 with
    | nil => simp [Values.listLt] at h
    | cons q qs => simp [Values.listLt]
  | cons p ps ih =>
    intro l2 h
    cases l2 with
    | nil => simp [Values.listLt] at h
    | cons q qs =>
      simp only [Values.listLt, Bool.or_eq_true, Bool.and_eq_true,
        decide_eq_true_eq] at h
      simp only [Values.listLt, Bool.or_eq_false_iff, Bool.and_eq_false_iff,
        decide_eq_false_iff_not, Bool.not_eq_true]
      rcases h with hlt | ⟨heq, hrest⟩
      · refine ⟨pairLt_asymm p q hlt, ?_⟩
        left
        intro hqp
        subst hqp
        rw [pairLt_irrefl] at hlt
        exact Bool.false_ne_true hlt
      · subst heq
        exact ⟨pairLt_irrefl p, Or.inr (ih qs hrest)⟩

theorem listLt_conn :
    ∀ (l1 l2 : List (Nat × Int)), Values.listLt l1 l2 = false →
    Values.listLt l2 l1 = false → l1 = l2 := by
  intro l1
  induction l1 with
  | nil =>
    intro l2 h1 _
    cases l2 with
    | nil => rfl
    | cons q qs => simp [Values.listLt] at h1
  | cons p ps ih =>
    intro l2 h1 h2
    cases l2 with
    | nil => simp [Values.listLt] at h2
    | cons q qs =>
      simp only [Values.listLt, Bool.or_eq_false_iff, Bool.and_eq_false_iff,
        decide_eq_false_iff_not, Bool.not_eq_true] at h1 h2
      have hpq : p = q := pairLt_conn p q h1.1 h2.1
      subst hpq
      rcases h1.2 with hc | hc
      · exact absurd rfl hc
      · rcases h2.2 with hd | hd
        · exact absurd rfl hd
        · rw [ih qs hc hd]

theorem listLt_trans :
    ∀ (l1 l2 l3 : List (Nat × Int)), Values.listLt l1 l2 = true →
    Values.listLt l2 l3 = true → Values.listLt l1 l3 = true := by
  intro l1
  induction l1 with
  | nil =>
    intro l2 l3 h1 h2
    cases l2 with
    | nil => simp [Values.listLt] at h1
    | cons q qs =>
      cases l3 with
      | nil => simp [Values.listLt] at h2
      | cons r rs => simp [Values.listLt]
  | cons p ps ih =>
    intro l2 l3 h1 h2
    cases l2 with
    | nil => simp [Values.listLt] at h1
    | cons q qs =>
      cases l3 with
      | nil => simp [Values.listLt] at h2
      | cons r rs =>
        simp only [Values.listLt, Bool.or_eq_true, Bool.and_eq_true,
          decide_eq_true_eq] at h1 h2 ⊢
        rcases h1 with hlt1 | ⟨heq1, hrest1⟩
        · rcases h2 with hlt2 | ⟨heq2, hrest2⟩
          · exact Or.inl (pairLt_trans p q r hlt1 hlt2)
          · subst heq2
            exact Or.inl hlt1
        · subst heq1
          rcases h2 with hlt2 | ⟨heq2, hrest2⟩
          · exact Or.inl hlt2
          · subst heq2
            exact Or.inr ⟨rfl, ih qs rs hrest1 hrest2⟩

theorem values_lt_asymm (a b : Values) (h : Values.lt a b = true) :
    Values.lt b a = false := listLt_asymm a.values b.values h

theorem values_lt_conn (a b : Values) (h1 : Values.lt a b = false)
    (h2 : Values.lt b a = false) : a = b := by
  cases a; cases b
  exact congrArg Values.mk (listLt_conn _ _ h1 h2)

theorem values_lt_trans (a b c : Values) (h1 : Values.lt a b = true)
    (h2 : Values.lt b c = true) : Values.lt a c = true :=
  listLt_trans a.values b.values c.values h1 h2

theorem find?_isSome_mem (t : Table) (k : Values)
    (h : (t.find? k).isSome = true) : k ∈ t.map Prod.fst := by
  induction t with
  | nil => simp [Table.find?] at h
  | cons e rest ih =>
    obtain ⟨k0, h0⟩ := e
    simp only [Table.find?] at h
    by_cases hk : k = k0
    · simp [hk]
    · rw [if_neg hk] at h
      simp [ih h]

theorem sorted_modify (t : Table) (k : Values)
    (f : AbstractHistogram → AbstractHistogram) (h : SortedT t) :
    SortedT (t.modify k f) := by
  induction t with
  | nil => exact h
  | cons e rest ih =>
    obtain ⟨k0, h0⟩ := e
    rw [SortedT, List.pairwise_cons] at h
    by_cases hk : k = k0
    · simp only [Table.modify, if_pos hk]
      rw [SortedT, List.pairwise_cons]
      exact ⟨h.1, h.2⟩
    · simp only [Table.modify, if_neg hk]
      rw [SortedT, List.pairwise_cons]
      refine ⟨?_, ih h.2⟩
      intro e2 he2
      have hmem : e2.fst ∈ (Table.modify rest k f).map Prod.fst :=
        List.mem_map_of_mem Prod.fst he2
      rw [keys_modify] at hmem
      obtain ⟨e3, he3, hfst⟩ := List.mem_map.mp hmem
      have h13 := h.1 e3 he3
      rw [hfst] at h13
      exact h13

theorem keys_ensure_subset :
    ∀ (t : Table) (k : Values) (x : Values),
    x ∈ (Table.ensure t k).map Prod.fst → x = k ∨ x ∈ t.map Prod.fst := by
  intro t k
  induction t with
  | nil =>
    intro x hx
    simp [Table.ensure] at hx
    exact Or.inl hx
  | cons e rest ih =>
    obtain ⟨k0, h0⟩ := e
    intro x hx
    by_cases hlt : Values.lt k k0
    · simp only [Table.ensure, if_pos hlt] at hx
      simp only [List.map_cons, List.mem_cons] at hx
      rcases hx with hx | hx | hx
      · exact Or.inl hx
      · exact Or.inr (by simp [hx])
      · exact Or.inr (by simp [hx])
    · by_cases hk : k = k0
      · simp only [Table.ensure, if_neg hlt, if_pos hk] at hx
        exact Or.inr hx
      · simp only [Table.ensure, if_neg hlt, if_neg hk] at hx
        simp only [List.map_cons, List.mem_cons] at hx
        rcases hx with hx | hx
        · exact Or.inr (by simp [hx])
        · rcases ih x hx with hx2 | hx2
          · exact Or.inl hx2
          · exact Or.inr (by simp [hx2])

theorem sorted_ensure (t : Table) (k : Values) (h : SortedT t) :
    SortedT (t.ensure k) := by
  induction t with
  | nil =>
    simp only [Table.ensure, SortedT]
    exact List.pairwise_singleton _ _
  | cons e rest ih =>
    obtain ⟨k0, h0⟩ := e
    rw [SortedT, List.pairwise_cons] at h
    by_cases hlt : Values.lt k k0
    · simp only [Table.ensure, if_pos hlt]
      rw [SortedT, List.pairwise_cons]
      constructor
      · intro e2 he2
        rcases List.mem_cons.mp he2 with he2 | he2
        · rw [he2]
          exact hlt
        · exact values_lt_trans k k0 e2.fst hlt (h.1 e2 he2)
      · rw [List.pairwise_cons]
        exact ⟨h.1, h.2⟩
    · by_cases hk : k = k0
      · simp only [Table.ensure, if_neg hlt, if_pos hk]
        rw [SortedT, List.pairwise_cons]
        exact ⟨h.1, h.2⟩
      · simp only [Table.ensure, if_neg hlt, if_neg hk]
        rw [SortedT, List.pairwise_cons]
        refine ⟨?_, ih h.2⟩
        intro e2 he2
        have hmem : e2.fst ∈ (Table.ensure rest k).map Prod.fst :=
          List.mem_map_of_mem Prod.fst he2
        rcases keys_ensure_subset rest k e2.fst hmem with hx | hx
        · rw [hx]
          have h0k : Values.lt k0 k ≠ false := by
            intro hcon
            exact hk (values_lt_conn k k0 (Bool.eq_false_iff.mpr hlt) hcon)
          exact Bool.not_eq_false _ |>.mp h0k
        · obtain ⟨e3, he3, hfst⟩ := List.mem_map.mp hx
          have h13 := h.1 e3 he3
          rw [hfst] at h13
          exact h13

theorem ensure_of_found (t : Table) (k : Values) (hs : SortedT t)
    (hf : (t.find? k).isSome = true) : t.ensure k = t := by
  induction t with
  | nil => simp [Table.find?] at hf
  | cons e rest ih =>
    obtain ⟨k0, h0⟩ := e
    rw [SortedT, List.pairwise_cons] at hs
    by_cases hk : k = k0
    · subst hk
      simp only [Table.ensure, values_lt_irrefl, if_pos rfl]
      simp
    · simp only [Table.find?, if_neg hk] at hf
      have hmem := find?_isSome_mem rest k hf
      obtain ⟨e3, he3, hfst⟩ := List.mem_map.mp hmem
      have h0k : Values.lt k0 k = true := by
        have := hs.1 e3 he3
        rw [hfst] at this
        exact this
      have hkk0 : Values.lt k k0 = false := by
        cases hcon : Values.lt k k0 with
        | false => rfl
        | true =>
          rw [values_lt_asymm k k0 hcon] at h0k
          exact absurd h0k (Bool.false_ne_true)
      simp only [Table.ensure, hkk0, Bool.false_eq_true, if_false, if_neg hk,
        ih hs.2 hf]
theorem executeReduce_unknown_witness :
    ("MAX" ≠ "MEAN") ∧ ("MAX" ≠ "COUNT")
    ∧ (∃ outF logF,
        executeReduce ⟨SType.REDUCE, Stage.STAGE2, [], "MAX"⟩
          [(exK, ⟨0, some exThR, none⟩)] = .ok (outF, logF) ∧
        logF = [(exK, (⟨0, some exThR, none⟩ : AbstractHistogram))].map
          (fun _ => "Reduction " ++ "MAX" ++ " not yet implemented") ∧
        ∀ e ∈ [(exK, (⟨0, some exThR, none⟩ : AbstractHistogram))],
          ∀ th, e.snd.th1 = some th →
          Table.find? outF e.fst =
            some ⟨0,
              some ((TH1.mkTH1F th.name (th.title ++ ";;") 1 0 1).setBin1 1 0),
              none⟩) :=
  ⟨by decide, by decide,
   executeReduce_unknown_reported_and_replaced Stage.STAGE2 [] "MAX"
     [(exK, ⟨0, some exThR, none⟩)] (by decide) (by decide)
     (by intro e he; simp at he; subst he; rfl)
     (by simp)⟩

theorem zipAdd_getD :
    ∀ (a b : List Rat), a.length = b.length → ∀ i : Nat,
    (List.zipWith (fun u v => u + v) a b).getD i 0 =
      a.getD i 0 + b.getD i 0 := by
  intro a
  induction a with
  | nil =>
    intro b hlen i
    cases b with
    | nil => simp
    | cons y ys => simp at hlen
  | cons x xs ih =>
    intro b hlen i
    cases b with
    | nil => simp at hlen
    | cons y ys =>
      cases i with
      | zero => simp
      | succ j =>
        simp only [List.zipWith_cons_cons, List.getD_cons_succ]
        exact ih ys (by simpa using hlen) j

theorem add_compatible_left (a b c : TH1) :
    (a.add b).compatible c = a.compatible c := by
  unfold TH1.add
  split <;> rfl

theorem add_nbinsX (a b : TH1) : (a.add b).nbinsX = a.nbinsX := by
  unfold TH1.add
  split <;> rfl

theorem compatible_nbinsX (a b : TH1) (h : a.compatible b = true) :
    a.nbinsX = b.nbinsX := by
  simp only [TH1.compatible, Bool.and_eq_true, decide_eq_true_eq] at h
  exact h.1.1.1.1.1.2

theorem add_binsX (a b : TH1) (h : a.compatible b = true) :
    (a.add b).binsX = List.zipWith (fun u v => u + v) a.binsX b.binsX := by
  unfold TH1.add
  rw [if_pos h]

/-- Under a snapshot-everywhere hypothesis, summing binAt over entries
is summing getD over the extracted snapshots. -/
theorem map_binAt_filterMap :
    ∀ (l : List (Values × AbstractHistogram)) (i : Nat),
    (∀ e ∈ l, e.snd.th1.isSome = true) →
    (l.filterMap (fun e => e.snd.th1)).map (fun th => th.binsX.getD i 0) =
      l.map (fun e => binAt e.snd i) := by
  intro l
  induction l with
  | nil => intro i _; rfl
  | cons e rest ih =>
    intro i hth
    cases hth1 : e.snd.th1 with
    | none =>
      have := hth e (List.mem_cons_self _ _)
      rw [hth1] at this
      simp at this
    | some th =>
      simp only [List.filterMap_cons, hth1, List.map_cons]
      rw [ih i (fun e2 he2 => hth e2 (List.mem_cons_of_mem _ he2))]
      simp [binAt, hth1]

/-- The accumulated merge of compatible equal-shape snapshots sums the
bins pointwise. -/
theorem mergeList_some_bins :
    ∀ (ths : List TH1) (ah : AbstractHistogram) (thAcc : TH1),
    ah.th1 = some thAcc →
    thAcc.binsX.length = thAcc.nbinsX →
    (∀ th ∈ ths, th.binsX.length = th.nbinsX ∧
      thAcc.compatible th = true) →
    ∃ ahF thF, mergeList (some ah) ths = some ahF ∧ ahF.th1 = some thF ∧
      thF.binsX.length = thF.nbinsX ∧ thF.nbinsX = thAcc.nbinsX ∧
      ∀ i, thF.binsX.getD i 0 =
        thAcc.binsX.getD i 0 +
          (ths.map (fun th => th.binsX.getD i 0)).sum := by
  intro ths
  induction ths with
  | nil =>
    intro ah thAcc hth hlen _
    exact ⟨ah, thAcc, rfl, hth, hlen, rfl, by simp⟩
  | cons th rest ih =>
    intro ah thAcc hth hlen hcomp
    obtain ⟨hlen2, hc⟩ := hcomp th (List.mem_cons_self _ _)
    have hstep : mergeStep (some ah) th =
        { ah with th1 := some (thAcc.add th) } := by
      simp [mergeStep, hth]
    have hnb : (thAcc.add th).nbinsX = thAcc.nbinsX := add_nbinsX thAcc th
    have hblen : (thAcc.add th).binsX.length = (thAcc.add th).nbinsX := by
      rw [add_binsX thAcc th hc, List.length_zipWith, hnb, hlen, hlen2,
        compatible_nbinsX thAcc th hc, Nat.min_self,
        ← compatible_nbinsX thAcc th hc]
    have hcomp2 : ∀ th2 ∈ rest, th2.binsX.length = th2.nbinsX ∧
        (thAcc.add th).compatible th2 = true := by
      intro th2 hth2
      obtain ⟨ha, hb⟩ := hcomp th2 (List.mem_cons_of_mem _ hth2)
      exact ⟨ha, by rw [add_compatible_left]; exact hb⟩
    obtain ⟨ahF, thF, hm, hthF, hlF, hnF, hbF⟩ :=
      ih { ah with th1 := some (thAcc.add th) } (thAcc.add th) rfl hblen hcomp2
    refine ⟨ahF, thF, ?_, hthF, hlF, by rw [hnF, hnb], ?_⟩
    · simp only [mergeList, hstep]
      exact hm
    · intro i
      rw [hbF i, add_binsX thAcc th hc,
        zipAdd_getD thAcc.binsX th.binsX
          (by rw [hlen, hlen2, compatible_nbinsX thAcc th hc]) i]
      simp only [List.map_cons, List.sum_cons]
      ring

theorem mem_groupInputs (cols : List Nat)
    (l : List (Values × AbstractHistogram)) (k : Values) (th : TH1)
    (h : th ∈ groupInputs cols l k) :
    ∃ e, e ∈ l ∧ projKey cols e.fst = k ∧ e.snd.th1 = some th := by
  simp only [groupInputs, List.mem_filterMap, List.mem_filter] at h
  obtain ⟨e, ⟨hel, hp⟩, hth⟩ := h
  exact ⟨e, hel, by simpa using hp, hth⟩

/-- Tracking one resulting key through the executeGroupBy entry loop:
the slot ends as the accumulated merge of the snapshots grouped into
that key, in table order. -/
theorem groupByGo_track (cols : List Nat) (k : Values) :
    ∀ (l : List (Values × AbstractHistogram)) (out outF : Table),
    SortedT out →
    groupByGo cols l out = .ok outF →
    Table.find? outF k =
      mergeList (Table.find? out k) (groupInputs cols l k) := by
  intro l
  induction l with
  | nil =>
    intro out outF _ hrun
    simp only [groupByGo, Except.ok.injEq] at hrun
    subst hrun
    rfl
  | cons e rest ih =>
    intro out outF hs hrun
    obtain ⟨ke, ah0⟩ := e
    cases hth1 : ah0.th1 with
    | none => simp [groupByGo, hth1] at hrun
    | some th =>
      simp only [groupByGo, hth1] at hrun
      by_cases hproj : projKey cols ke = k
      · rw [hproj] at hrun
        have hgi : groupInputs cols ((ke, ah0) :: rest) k =
            th :: groupInputs cols rest k := by
          simp [groupInputs, List.filter_cons, hproj, hth1]
        rw [hgi]
        cases hfind : Table.find? out k with
        | none =>
          rw [find?_ensure_of_none out k hfind] at hrun
          simp only [Option.getD_some, AbstractHistogram.empty] at hrun
          have h2 := ih ((out.ensure k).modify k
              (fun hh => { hh with th1 := some th })) outF
            (sorted_modify _ _ _ (sorted_ensure _ _ hs)) hrun
          rw [h2, find?_modify_self, find?_ensure_of_none out k hfind]
          simp [mergeList, mergeStep, AbstractHistogram.empty]
        | some ah =>
          have hens : out.ensure k = out :=
            ensure_of_found out k hs (by rw [hfind]; rfl)
          rw [hens, hfind] at hrun
          simp only [Option.getD_some] at hrun
          cases hahth : ah.th1 with
          | none =>
            rw [hahth] at hrun
            have h2 := ih (out.modify k
                (fun hh => { hh with th1 := some th })) outF
              (sorted_modify _ _ _ hs) hrun
            rw [h2, find?_modify_self, hfind]
            simp [mergeList, mergeStep, hahth]
          | some t0 =>
            rw [hahth] at hrun
            have h2 := ih (out.modify k
                (fun hh => { hh with th1 := some (t0.add th) })) outF
              (sorted_modify _ _ _ hs) hrun
            rw [h2, find?_modify_self, hfind]
            simp [mergeList, mergeStep, hahth]
      · have hgi : groupInputs cols ((ke, ah0) :: rest) k =
            groupInputs cols rest k := by
          simp [groupInputs, List.filter_cons, hproj]
        rw [hgi]
        have hne : k ≠ projKey cols ke := fun hc => hproj hc.symm
        cases hcur : (((out.ensure (projKey cols ke)).find?
            (projKey cols ke)).getD AbstractHistogram.empty).th1 with
        | none =>
          rw [hcur] at hrun
          have h2 := ih ((out.ensure (projKey cols ke)).modify
              (projKey cols ke) (fun hh => { hh with th1 := some th })) outF
            (sorted_modify _ _ _ (sorted_ensure _ _ hs)) hrun
          rw [h2, find?_modify_ne _ _ _ _ hne, find?_ensure_ne _ _ _ hne]
        | some t0 =>
          rw [hcur] at hrun
          have h2 := ih ((out.ensure (projKey cols ke)).modify
              (projKey cols ke)
              (fun hh => { hh with th1 := some (t0.add th) })) outF
            (sorted_modify _ _ _ (sorted_ensure _ _ hs)) hrun
          rw [h2, find?_modify_ne _ _ _ _ hne, find?_ensure_ne _ _ _ hne]

/-- The bin-wise-sum characterization of the GROUPBY entry loop run on
a fresh output table. -/
theorem groupByGo_binwise (cols : List Nat)
    (l : List (Values × AbstractHistogram)) (outF : Table)
    (huni : GroupUniform cols l)
    (hrun : groupByGo cols l [] = .ok outF) :
    ∀ k i, outBinAt outF k i = groupSumBin cols l k i := by
  intro k i
  have htrack := groupByGo_track cols k l [] outF (by simp [SortedT]) hrun
  have hsome : ∀ e ∈ l.filter (fun e => projKey cols e.fst == k),
      e.snd.th1.isSome = true := by
    intro e he
    obtain ⟨th, hth, _, _⟩ := huni e (List.mem_of_mem_filter he)
    simp [hth]
  have hmapsum :
      (groupInputs cols l k).map (fun th => th.binsX.getD i 0) =
        (l.filter (fun e => projKey cols e.fst == k)).map
          (fun e => binAt e.snd i) :=
    map_binAt_filterMap _ i hsome
  cases hgi : groupInputs cols l k with
  | nil =>
    have hlen0 : (l.filter (fun e => projKey cols e.fst == k)).length = 0 := by
      have := congrArg List.length hmapsum
      simp only [List.length_map] at this
      rw [hgi] at this
      simpa using this.symm
    rw [outBinAt, htrack, hgi]
    simp only [mergeList]
    rw [Table.find?]
    rw [groupSumBin, List.length_eq_zero.mp hlen0]
    simp
  | cons th ths =>
    obtain ⟨e1, he1, hp1, hth1⟩ :=
      mem_groupInputs cols l k th (by rw [hgi]; exact List.mem_cons_self _ _)
    obtain ⟨th1e, hth1e, hlen1, hblock⟩ := huni e1 he1
    rw [hth1] at hth1e
    injection hth1e with hth1e
    subst hth1e
    have hcomp : ∀ th2 ∈ ths, th2.binsX.length = th2.nbinsX ∧
        th.compatible th2 = true := by
      intro th2 hth2
      obtain ⟨e2, he2, hp2, hth2e⟩ := mem_groupInputs cols l k th2
        (by rw [hgi]; exact List.mem_cons_of_mem _ hth2)
      obtain ⟨th2e, hth2e2, hlen2, _⟩ := huni e2 he2
      rw [hth2e] at hth2e2
      injection hth2e2 with hth2e2
      subst hth2e2
      exact ⟨hlen2, hblock e2 he2 (by rw [hp1, hp2]) th2 hth2e⟩
    obtain ⟨ahF, thF, hm, hthF, _, _, hbF⟩ :=
      mergeList_some_bins ths ⟨0, some th, none⟩ th rfl hlen1 hcomp
    rw [outBinAt, htrack, hgi]
    rw [Table.find?]
    simp only [mergeList, mergeStep]
    rw [hm]
    simp only [binAt, hthF]
    rw [hbF i, groupSumBin, ← hmapsum, hgi]
    simp

/-- C6: after a stage-2 GROUPBY step over snapshots of per-group
compatible shape, the distribution stored under each new key is the
bin-wise sum of the distributions of every old entry whose key projects
to that new key, and the resulting bins are independent of the order in
which the old entries are merged. -/
theorem executeGroupBy_binwise_sum (step : Step)
    (l : List (Values × AbstractHistogram)) (outF : Table)
    (huni : GroupUniform step.columns l)
    (hrun : executeGroupBy step l = .ok outF) :
    (∀ k i, outBinAt outF k i = groupSumBin step.columns l k i)
    ∧ (∀ l2 outF2, List.Perm l l2 → executeGroupBy step l2 = .ok outF2 →
        ∀ k i, outBinAt outF2 k i = outBinAt outF k i) := by
  have h1 := groupByGo_binwise step.columns l outF huni hrun
  refine ⟨h1, ?_⟩
  intro l2 outF2 hperm hrun2
  have huni2 : GroupUniform step.columns l2 := by
    intro e he
    obtain ⟨th, hth, hlen, hblock⟩ := huni e (hperm.mem_iff.mpr he)
    exact ⟨th, hth, hlen, fun e2 he2 => hblock e2 (hperm.mem_iff.mpr he2)⟩
  have h2 := groupByGo_binwise step.columns l2 outF2 huni2 hrun2
  intro k i
  rw [h1 k i, h2 k i]
  rw [groupSumBin, groupSumBin]
  exact List.Perm.sum_eq (List.Perm.map _ (List.Perm.filter _ hperm.symm))

/-- Closed instantiation of executeGroupBy_binwise_sum: grouping the
entries {A maps to 5, B maps to 3} under one key yields 8, in both
processing orders. -/
theorem executeGroupBy_binwise_sum_witness :
    GroupUniform [0] exGTable
    ∧ executeGroupBy ⟨SType.GROUPBY, Stage.STAGE2, [0], ""⟩ exGTable = .ok exGOut
    ∧ outBinAt exGOut ⟨[(0, 1)]⟩ 0 = groupSumBin [0] exGTable ⟨[(0, 1)]⟩ 0
    ∧ outBinAt exGOut ⟨[(0, 1)]⟩ 0 = 8 := by
  have huni : GroupUniform [0] exGTable := by
    intro e he
    simp only [exGTable, List.mem_cons, List.not_mem_nil, or_false] at he
    rcases he with he | he <;> subst he
    · refine ⟨exGThA, rfl, by decide, ?_⟩
      intro e2 he2
      simp only [exGTable, List.mem_cons, List.not_mem_nil, or_false] at he2
      rcases he2 with he2 | he2 <;> subst he2 <;>
        exact fun _ th2 h2 => by injection h2 with h2; subst h2; decide
    · refine ⟨exGThB, rfl, by decide, ?_⟩
      intro e2 he2
      simp only [exGTable, List.mem_cons, List.not_mem_nil, or_false] at he2
      rcases he2 with he2 | he2 <;> subst he2 <;>
        exact fun _ th2 h2 => by injection h2 with h2; subst h2; decide
  have hrun : executeGroupBy ⟨SType.GROUPBY, Stage.STAGE2, [0], ""⟩ exGTable =
      .ok exGOut := by with_unfolding_all rfl
  refine ⟨huni, hrun, ?_, ?_⟩
  · exact (executeGroupBy_binwise_sum ⟨SType.GROUPBY, Stage.STAGE2, [0], ""⟩
      exGTable exGOut huni hrun).1 ⟨[(0, 1)]⟩ 0
  · with_unfolding_all rfl

/-- The steady state of the per-event counting loop: once the Counter
entry exists, every further fill call increments it and does nothing
else. -/
theorem c2_fill_loop (bu : Bool) (dims0 : Int) :
    ∀ (rest : List (Rat × Rat)) (c : Int) (ah : AbstractHistogram),
    runUncached bu dims0 progCountGroup exK2 rest
      [(exK, ah), (exK2, ⟨c, none, none⟩)] =
    .ok [(exK, ah), (exK2, ⟨c + rest.length, none, none⟩)] := by
  intro rest
  induction rest with
  | nil => intro c ah; simp [runUncached]
  | cons s r2 ih =>
    intro c ah
    obtain ⟨x, y⟩ := s
    have hone : executeStep1Spec bu dims0 x y exK2 progCountGroup
        [(exK, ah), (exK2, ⟨c, none, none⟩)] .STAGE1 none =
        .ok ⟨[(exK, ah), (exK2, ⟨c + 1, none, none⟩)], exK2, some exK2⟩ := rfl
    simp only [runUncached, hone]
    rw [ih (c + 1) ah]
    have harith : c + 1 + (r2.length : Int) =
        c + (((x, y) :: r2).length : Int) := by
      simp only [List.length_cons]
      push_cast
      ring
    rw [harith]

/-- C2: for the program [COUNT at PER_EVENT, GROUPBY at
PER_EVENT_HARVEST], after N fill calls sharing one Key and one
per-event harvest call, the histogram booked under the grouped Key
receives exactly one fill whose value is the accumulated count N, and
the Counter stored under the original Key is reset to 0. -/
theorem count_perEventHarvest_fill (bu : Bool) (dims0 : Int) (c0 : Int)
    (th : TH1) (samples : List (Rat × Rat)) (hne : samples ≠ []) :
    runUncached bu dims0 progCountGroup exK2 samples
      [(exK, ⟨c0, none, some ⟨th⟩⟩)] =
      .ok [(exK, ⟨c0, none, some ⟨th⟩⟩),
           (exK2, ⟨(samples.length : Int), none, none⟩)]
    ∧ executePerEventHarvesting bu dims0 progCountGroup
        [(exK, ⟨c0, none, some ⟨th⟩⟩),
         (exK2, ⟨(samples.length : Int), none, none⟩)] =
      .ok [(exK, ⟨c0, none,
              some ⟨th.fill1 (((samples.length : Int) : Rat))⟩⟩),
           (exK2, ⟨0, none, none⟩)] := by
  constructor
  · cases samples with
    | nil => exact absurd rfl hne
    | cons s rest =>
      obtain ⟨x, y⟩ := s
      have h0 : executeStep1Spec bu dims0 x y exK2 progCountGroup
          [(exK, ⟨c0, none, some ⟨th⟩⟩)] .STAGE1 none =
          .ok ⟨[(exK, ⟨c0, none, some ⟨th⟩⟩), (exK2, ⟨1, none, none⟩)],
            exK2, some exK2⟩ := rfl
      simp only [runUncached, h0]
      rw [c2_fill_loop bu dims0 rest 1 _]
      have harith : (1 : Int) + (rest.length : Int) =
          (((x, y) :: rest).length : Int) := by
        simp only [List.length_cons]
        push_cast
        ring
      rw [harith]
  · exact rfl

theorem filter_insertPair (p : Nat × Int) :
    ∀ (l : List (Nat × Int)),
    (Values.insertPair l p).filter (fun q => q.fst ≠ p.fst) =
      l.filter (fun q => q.fst ≠ p.fst) := by
  intro l
  induction l with
  | nil => simp [Values.insertPair]
  | cons q rest ih =>
    by_cases hlt : p.fst < q.fst
    · simp only [Values.insertPair, if_pos hlt]
      rw [List.filter_cons, List.filter_cons]
      simp
    · by_cases heq : p.fst = q.fst
      · rw [Values.insertPair]
        rw [if_neg hlt, if_pos heq]
        rw [List.filter_cons, List.filter_cons]
        have : ¬(q.fst ≠ p.fst) := by omega
        simp [this]
      · rw [Values.insertPair]
        rw [if_neg hlt, if_neg heq]
        rw [List.filter_cons, List.filter_cons, ih]

theorem erase_put (base : Values) (c : Nat) (v : Int)
    (hc : c ∉ base.values.map Prod.fst) :
    (base.put (c, v)).erase c = base := by
  rw [Values.put, Values.erase]
  cases base with
  | mk l =>
    simp only
    rw [filter_insertPair (c, v) l]
    congr 1
    rw [List.filter_eq_self]
    intro q hq
    simp only [ne_eq, decide_eq_true_eq]
    intro hcon
    have hmem := List.mem_map_of_mem Prod.fst hq
    rw [hcon] at hmem
    exact hc hmem

theorem get_put (base : Values) (c : Nat) (v : Int)
    (hc : c ∉ base.values.map Prod.fst) :
    (base.put (c, v)).get c = (c, v) := by
  rw [Values.put, Values.get]
  cases base with
  | mk l =>
    simp only
    induction l with
    | nil => simp [Values.insertPair]
    | cons q rest ih =>
      simp only [List.map_cons, List.mem_cons] at hc
      push_neg at hc
      by_cases hlt : c < q.fst
      · simp [Values.insertPair, if_pos hlt]
      · by_cases heq : c = q.fst
        · exact absurd heq hc.1
        · simp only [Values.insertPair, if_neg hlt, if_neg heq]
          rw [List.find?]
          have : (decide (q.fst = c)) = false := by
            simp
            exact fun hcon => heq hcon.symm
          rw [this]
          exact ih hc.2

theorem put_lt_put (base : Values) (c : Nat) (v1 v2 : Int)
    (hc : c ∉ base.values.map Prod.fst) (hv : v1 < v2) :
    Values.lt (base.put (c, v1)) (base.put (c, v2)) = true := by
  rw [Values.put, Values.put, Values.lt]
  cases base with
  | mk l =>
    simp only
    induction l with
    | nil =>
      simp [Values.insertPair, Values.listLt, Values.pairLt, hv]
    | cons q rest ih =>
      simp only [List.map_cons, List.mem_cons] at hc
      push_neg at hc
      by_cases hlt : c < q.fst
      · simp only [Values.insertPair, if_pos hlt]
        simp [Values.listLt, Values.pairLt, hv]
      · by_cases heq : c = q.fst
        · exact absurd heq hc.1
        · simp only [Values.insertPair, if_neg hlt, if_neg heq]
          simp [Values.listLt, pairLt_irrefl, ih hc.2]

theorem set_at_append_len (pre : List Rat) (x : Rat) (rest : List Rat)
    (v : Rat) : (pre ++ x :: rest).set pre.length v = pre ++ v :: rest := by
  induction pre with
  | nil => rfl
  | cons a as ih => simp [List.set, ih]

/-- The 1-D copy loop of executeExtend writes the source bins over the
zero block starting at the cursor, bumping the entry count once per
bin. -/
theorem copy1Dgo_spec (src : TH1) (hdim : src.dim = 1)
    (hlen : src.binsX.length = src.nbinsX) :
    ∀ (rem : Nat) (i : Nat) (dst : TH1) (pre : List Rat) (m : Nat),
    1 ≤ i → i + rem = src.nbinsX + 1 →
    dst.binsX = pre ++ List.replicate (rem + m) 0 →
    dst.nbinsX = dst.binsX.length →
    copy1Dgo src rem i dst ((pre.length : Int) + 1) =
      ({ dst with
         binsX := pre ++ src.binsX.drop (i - 1) ++ List.replicate m 0,
         entries := dst.entries + (rem : Rat) },
       (pre.length : Int) + 1 + rem) := by
  intro rem
  induction rem with
  | zero =>
    intro i dst pre m h1 h2 hb hn
    have hdrop : src.binsX.drop (i - 1) = [] := by
      apply List.drop_eq_nil_of_le
      rw [hlen]
      omega
    rw [copy1Dgo, hdrop]
    have hb0 : dst.binsX = pre ++ List.replicate m 0 := by simpa using hb
    rw [Prod.mk.injEq]
    constructor
    · cases dst
      simp only [TH1.mk.injEq] at hb0 ⊢
      simp_all
    · push_cast
      ring
  | succ rem ih =>
    intro i dst pre m h1 h2 hb hn
    have hle : i ≤ src.nbinsX := by omega
    have hilen : i - 1 < src.binsX.length := by rw [hlen]; omega
    have hv : src.getBinContent1 (i : Int) = src.binsX.getD (i - 1) 0 := by
      rw [TH1.getBinContent1, if_pos hdim, if_pos (by omega)]
      congr 1
      omega
    have hrep : List.replicate (rem + 1 + m) (0 : Rat) =
        0 :: List.replicate (rem + m) 0 := by
      rw [show rem + 1 + m = (rem + m) + 1 by omega, List.replicate_succ]
    have hset : (dst.setBin1 ((pre.length : Int) + 1)
        (src.getBinContent1 (i : Int))) =
        { dst with
          binsX := pre ++ src.binsX.getD (i - 1) 0 :: List.replicate (rem + m) 0,
          entries := dst.entries + 1 } := by
      rw [TH1.setBin1, hv]
      rw [if_pos (by
        constructor
        · omega
        · rw [hn, hb, List.length_append, List.length_replicate]
          push_cast
          omega)]
      have : (((pre.length : Int) + 1) - 1).toNat = pre.length := by omega
      rw [this]
      simp only [hb, hrep]
      rw [set_at_append_len]
    rw [copy1Dgo, hset]
    have hcur : ((pre.length : Int) + 1) + 1 =
        (((pre ++ [src.binsX.getD (i - 1) 0]).length : Int) + 1) := by
      simp
    rw [hcur]
    rw [ih (i + 1)
      { dst with
        binsX := pre ++ src.binsX.getD (i - 1) 0 :: List.replicate (rem + m) 0,
        entries := dst.entries + 1 }
      (pre ++ [src.binsX.getD (i - 1) 0]) m (by omega) (by omega)
      (by simp) (by simp [hn, hb, hrep])]
    have h3 : i - 1 + 1 = i := by omega
    have hdrop : src.binsX.drop (i - 1) =
        src.binsX.getD (i - 1) 0 :: src.binsX.drop i := by
      rw [List.drop_eq_getElem_cons hilen, h3,
        List.getD_eq_getElem src.binsX 0 hilen]
    have hidx : i + 1 - 1 = i := by omega
    rw [Prod.mk.injEq]
    refine ⟨?_, by push_cast [List.length_append, List.length_singleton]; ring⟩
    rw [hidx, hdrop]
    have hap : (pre ++ [src.binsX.getD (i - 1) 0]) ++
        src.binsX.drop i ++ List.replicate m 0 =
        pre ++ (src.binsX.getD (i - 1) 0 :: src.binsX.drop i) ++
          List.replicate m 0 := by simp
    rw [hap]
    have hent : dst.entries + 1 + (rem : Rat) =
        dst.entries + ((rem + 1 : Nat) : Rat) := by
      push_cast
      ring
    rw [hent]

theorem nbinsBump_same (base : Values) (acc n : Nat) :
    nbinsBump [(base, acc)] base n = [(base, acc + n)] := by
  simp [nbinsBump]

/-- The first pass of executeExtend over entries that all project to
one resulting key accumulates the total bin count there. -/
theorem nbinsPass_ext (c : Nat) (base : Values)
    (hc : c ∉ base.values.map Prod.fst) :
    ∀ (inputs : List (Int × TH1)) (acc : Nat),
    nbinsPass [c] true (extInputsTable base c inputs) [(base, acc)] =
      .ok [(base, acc + (inputs.map (fun p => p.snd.nbinsX)).sum)] := by
  intro inputs
  induction inputs with
  | nil => intro acc; simp [extInputsTable, nbinsPass]
  | cons p rest ih =>
    intro acc
    obtain ⟨v, th⟩ := p
    simp only [extInputsTable, List.map_cons, nbinsPass]
    rw [if_pos trivial, erase_put base c v hc, nbinsBump_same]
    have ih2 := ih (acc + th.nbinsX)
    simp only [extInputsTable] at ih2
    rw [ih2]
    simp only [List.map_cons, List.sum_cons]
    rw [Nat.add_assoc]

/-- The steady state of the executeExtend copy pass over entries that
all project to one already-created resulting key: each entry's bins are
appended at the running cursor. -/
theorem extendGo_loop (c : Nat) (pretty : Nat → String) (base : Values)
    (hc : c ∉ base.values.map Prod.fst) (nb : List (Values × Nat)) :
    ∀ (rest : List (Int × TH1)) (thOut : TH1) (done : List Rat) (m : Nat),
    thOut.dim = 1 →
    thOut.binsX = done ++
      List.replicate ((rest.map (fun p => p.snd.nbinsX)).sum + m) 0 →
    thOut.nbinsX = thOut.binsX.length →
    (∀ p ∈ rest, p.snd.dim = 1 ∧ p.snd.binsX.length = p.snd.nbinsX) →
    extendGo [c] pretty true nb (extInputsTable base c rest)
        [(base, ⟨(done.length : Int) + 1, some thOut, none⟩)] =
      .ok [(base,
        ⟨(done.length : Int) + 1 +
           (((rest.map (fun p => p.snd.nbinsX)).sum : Nat) : Int),
         some { thOut with
           binsX := done ++ (rest.map (fun p => p.snd.binsX)).flatten ++
             List.replicate m 0,
           entries := thOut.entries +
             (((rest.map (fun p => p.snd.nbinsX)).sum : Nat) : Rat) },
         none⟩)] := by
  intro rest
  induction rest with
  | nil =>
    intro thOut done m hdim1 hb hn _
    simp only [extInputsTable, List.map_nil, extendGo]
    have hb0 : thOut.binsX = done ++ List.replicate m 0 := by simpa using hb
    simp only [List.map_nil, List.sum_nil, List.flatten_nil, List.append_nil,
      List.nil_append, Nat.cast_zero, add_zero]
    rw [← hb0]
  | cons p rest ih =>
    intro thOut done m hdim1 hb hn hshape
    obtain ⟨v, th⟩ := p
    obtain ⟨hdimp, hlenp⟩ := hshape (v, th) (List.mem_cons_self _ _)
    dsimp only at hdimp hlenp
    simp only [extInputsTable, List.map_cons, extendGo]
    rw [erase_put base c v hc]
    rw [show Table.ensure [(base, (⟨(done.length : Int) + 1, some thOut, none⟩ :
        AbstractHistogram))] base =
      [(base, ⟨(done.length : Int) + 1, some thOut, none⟩)] by
      simp [Table.ensure, values_lt_irrefl]]
    rw [show Table.find? [(base, (⟨(done.length : Int) + 1, some thOut, none⟩ :
        AbstractHistogram))] base =
      some ⟨(done.length : Int) + 1, some thOut, none⟩ by
      simp [Table.find?]]
    simp only [Option.getD_some]
    rw [if_pos hdim1]
    have hcopy := copy1Dgo_spec th hdimp hlenp th.nbinsX 1 thOut done
      ((rest.map (fun p => p.snd.nbinsX)).sum + m) (by omega) (by omega)
      (by rw [hb]; congr 2; simp only [List.map_cons, List.sum_cons]; omega) hn
    rw [copy1D]
    rw [show ((done.length : Int) + 1) = ((done.length : Int) + 1) from rfl]
    simp only [Nat.sub_self, List.drop_zero] at hcopy
    rw [hcopy]
    rw [show Table.modify [(base, (⟨(done.length : Int) + 1, some thOut, none⟩ :
        AbstractHistogram))] base (fun hh => { hh with
          th1 := some { thOut with
            binsX := done ++ th.binsX ++
              List.replicate ((rest.map (fun p => p.snd.nbinsX)).sum + m) 0,
            entries := thOut.entries + (th.nbinsX : Rat) },
          count := (done.length : Int) + 1 + th.nbinsX }) =
      [(base, ⟨(done.length : Int) + 1 + th.nbinsX,
        some { thOut with
          binsX := done ++ th.binsX ++
            List.replicate ((rest.map (fun p => p.snd.nbinsX)).sum + m) 0,
          entries := thOut.entries + (th.nbinsX : Rat) },
        none⟩)] by simp [Table.modify]]
    have ih2 := ih { thOut with
        binsX := done ++ th.binsX ++
          List.replicate ((rest.map (fun p => p.snd.nbinsX)).sum + m) 0,
        entries := thOut.entries + (th.nbinsX : Rat) }
      (done ++ th.binsX) m hdim1 (by simp)
      (by
        simp [hn, hb, List.length_append, List.length_replicate,
          List.map_cons, List.sum_cons]
        omega)
      (fun p2 hp2 => hshape p2 (List.mem_cons_of_mem _ hp2))
    rw [show ((done ++ th.binsX).length : Int) + 1 =
        (done.length : Int) + 1 + th.nbinsX by
      push_cast [List.length_append]
      rw [hlenp]
      ring] at ih2
    simp only [extInputsTable] at ih2
    rw [ih2]
    simp only [List.map_cons, List.sum_cons, List.flatten_cons]
    have e1 : (done.length : Int) + 1 + (th.nbinsX : Int) +
        (((rest.map (fun p => p.snd.nbinsX)).sum : Nat) : Int) =
        (done.length : Int) + 1 +
          ((th.nbinsX + (rest.map (fun p => p.snd.nbinsX)).sum : Nat) : Int) := by
      push_cast
      ring
    have e2 : (done ++ th.binsX) ++
        (rest.map (fun p => p.snd.binsX)).flatten ++ List.replicate m (0 : Rat) =
        done ++ (th.binsX ++ (rest.map (fun p => p.snd.binsX)).flatten) ++
          List.replicate m 0 := by
      simp
    have e3 : thOut.entries + (th.nbinsX : Rat) +
        (((rest.map (fun p => p.snd.nbinsX)).sum : Nat) : Rat) =
        thOut.entries +
          ((th.nbinsX + (rest.map (fun p => p.snd.nbinsX)).sum : Nat) : Rat) := by
      push_cast
      ring
    rw [e1, e2, e3]

theorem find?_singleton (k : Values) (h : AbstractHistogram) :
    Table.find? [(k, h)] k = some h := by
  simp [Table.find?]

theorem modify_singleton (k : Values) (h : AbstractHistogram)
    (f : AbstractHistogram → AbstractHistogram) :
    Table.modify [(k, h)] k f = [(k, f h)] := by
  simp [Table.modify]

theorem mkTH1F_dim (a b : String) (n : Nat) (lo hi : Rat) :
    (TH1.mkTH1F a b n lo hi).dim = 1 := rfl

theorem mkTH1F_nbinsX (a b : String) (n : Nat) (lo hi : Rat) :
    (TH1.mkTH1F a b n lo hi).nbinsX = n := rfl

theorem mkTH1F_binsX (a b : String) (n : Nat) (lo hi : Rat) :
    (TH1.mkTH1F a b n lo hi).binsX = List.replicate n 0 := rfl

/-- Processing the first entry of an EXTEND_X input table books the
output histogram for the resulting key (sized by the nbins lookup) and
copies the entry's bins starting at fill cursor 1. -/
theorem extendGo_first (c : Nat) (pretty : Nat → String) (base : Values)
    (hc : c ∉ base.values.map Prod.fst) (nb : List (Values × Nat))
    (v1 : Int) (th1v : TH1) (rest : List (Int × TH1)) (m2 : Nat)
    (hdim1 : th1v.dim = 1) (hlen1 : th1v.binsX.length = th1v.nbinsX)
    (hn : nbinsLookup nb base = th1v.nbinsX + m2) :
    extendGo [c] pretty true nb (extInputsTable base c ((v1, th1v) :: rest)) [] =
      extendGo [c] pretty true nb (extInputsTable base c rest)
        [(base, ⟨1 + (th1v.nbinsX : Int), some
          { TH1.mkTH1F th1v.name
              (th1v.title ++ " per " ++ pretty c ++ ";" ++ pretty c ++ "/" ++
                th1v.xtitle ++ ";" ++ th1v.ytitle)
              (th1v.nbinsX + m2) (1/2)
              (((th1v.nbinsX + m2 : Nat) : Rat) + 1/2) with
            binsX := th1v.binsX ++ List.replicate m2 0,
            entries := (TH1.mkTH1F th1v.name
              (th1v.title ++ " per " ++ pretty c ++ ";" ++ pretty c ++ "/" ++
                th1v.xtitle ++ ";" ++ th1v.ytitle)
              (th1v.nbinsX + m2) (1/2)
              (((th1v.nbinsX + m2 : Nat) : Rat) + 1/2)).entries +
              (th1v.nbinsX : Rat) }, none⟩)] := by
  have hcopy := copy1Dgo_spec th1v hdim1 hlen1 th1v.nbinsX 1
    (TH1.mkTH1F th1v.name
      (th1v.title ++ " per " ++ pretty c ++ ";" ++ pretty c ++ "/" ++
        th1v.xtitle ++ ";" ++ th1v.ytitle)
      (th1v.nbinsX + m2) (1/2)
      (((th1v.nbinsX + m2 : Nat) : Rat) + 1/2)) [] m2
    (by omega) (by omega)
    (by simp [mkTH1F_binsX])
    (by simp [mkTH1F_nbinsX, mkTH1F_binsX])
  simp only [List.length_nil, Nat.cast_zero, zero_add, Nat.sub_self,
    List.drop_zero, List.nil_append] at hcopy
  rw [← copy1D] at hcopy
  simp only [extInputsTable, List.map_cons, extendGo,
    erase_put base c v1 hc, get_put base c v1 hc, hdim1]
  rw [show Table.ensure [] base = [(base, AbstractHistogram.empty)] from rfl]
  rw [find?_singleton]
  simp only [Option.getD_some, AbstractHistogram.empty]
  rw [hn]
  simp only [eq_self_iff_true, and_self, if_true, mkTH1F_dim]
  rw [modify_singleton]
  dsimp only
  rw [hcopy]
  dsimp only
  rw [modify_singleton]
  dsimp only
  simp only [mkTH1F_dim]

/-- C5: a stage-2 EXTEND_X step over 1-D distributions that agree on
every column except the dropped one merges them into a single entry
whose bin count is the sum of the input bin counts and whose bins are
the inputs' bins concatenated in ascending order of the dropped
column's values (which is the embedded map's iteration order, as the
SortedT conjunct certifies). -/
theorem executeExtend_concat (st : Stage) (arg : String)
    (pretty : Nat → String) (base : Values) (c : Nat)
    (inputs : List (Int × TH1))
    (hc : c ∉ base.values.map Prod.fst)
    (hasc : List.Chain' (fun p q => p.fst < q.fst) inputs)
    (hshape : ∀ p ∈ inputs, p.snd.dim = 1 ∧ p.snd.binsX.length = p.snd.nbinsX)
    (hne : inputs ≠ []) :
    SortedT (extInputsTable base c inputs)
    ∧ ∃ ah th, executeExtend ⟨SType.EXTEND_X, st, [c], arg⟩ pretty
        (extInputsTable base c inputs) true = .ok [(base, ah)]
      ∧ ah.th1 = some th
      ∧ th.nbinsX = (inputs.map (fun p => p.snd.nbinsX)).sum
      ∧ th.binsX = (inputs.map (fun p => p.snd.binsX)).flatten := by
  constructor
  · rw [SortedT, extInputsTable, List.pairwise_map]
    haveI : IsTrans (Int × TH1) (fun p q => p.fst < q.fst) :=
      ⟨fun _ _ _ h1 h2 => lt_trans h1 h2⟩
    have hpw : List.Pairwise (fun p q : Int × TH1 => p.fst < q.fst) inputs :=
      (List.chain'_iff_pairwise.mp hasc)
    exact hpw.imp (fun hlt => put_lt_put base c _ _ hc hlt)
  · cases inputs with
    | nil => exact absurd rfl hne
    | cons p0 rest =>
      obtain ⟨v1, th1v⟩ := p0
      obtain ⟨hdim1, hlen1⟩ := hshape (v1, th1v) (List.mem_cons_self _ _)
      dsimp only at hdim1 hlen1
      have hnb : nbinsPass [c] true
          (extInputsTable base c ((v1, th1v) :: rest)) [] =
          .ok [(base, th1v.nbinsX + (rest.map (fun p => p.snd.nbinsX)).sum)] := by
        simp only [extInputsTable, List.map_cons, nbinsPass, nbinsBump]
        rw [if_pos trivial, erase_put base c v1 hc]
        have h2 := nbinsPass_ext c base hc rest th1v.nbinsX
        simp only [extInputsTable] at h2
        exact h2
      have hfirst := extendGo_first c pretty base hc
        [(base, th1v.nbinsX + (rest.map (fun p => p.snd.nbinsX)).sum)]
        v1 th1v rest ((rest.map (fun p => p.snd.nbinsX)).sum)
        hdim1 hlen1 (by simp [nbinsLookup])
      have hloop := extendGo_loop c pretty base hc
        [(base, th1v.nbinsX + (rest.map (fun p => p.snd.nbinsX)).sum)] rest
        { TH1.mkTH1F th1v.name
            (th1v.title ++ " per " ++ pretty c ++ ";" ++ pretty c ++ "/" ++
              th1v.xtitle ++ ";" ++ th1v.ytitle)
            (th1v.nbinsX + (rest.map (fun p => p.snd.nbinsX)).sum) (1/2)
            (((th1v.nbinsX + (rest.map (fun p => p.snd.nbinsX)).sum : Nat) :
              Rat) + 1/2) with
          binsX := th1v.binsX ++
            List.replicate ((rest.map (fun p => p.snd.nbinsX)).sum) 0,
          entries := (TH1.mkTH1F th1v.name
            (th1v.title ++ " per " ++ pretty c ++ ";" ++ pretty c ++ "/" ++
              th1v.xtitle ++ ";" ++ th1v.ytitle)
            (th1v.nbinsX + (rest.map (fun p => p.snd.nbinsX)).sum) (1/2)
            (((th1v.nbinsX + (rest.map (fun p => p.snd.nbinsX)).sum : Nat) :
              Rat) + 1/2)).entries + (th1v.nbinsX : Rat) }
        th1v.binsX 0 rfl
        (by simp)
        (by simp [mkTH1F_nbinsX, List.length_append, List.length_replicate,
          hlen1])
        (fun p2 hp2 => hshape p2 (List.mem_cons_of_mem _ hp2))
      rw [show ((th1v.binsX.length : Int) + 1) = 1 + (th1v.nbinsX : Int) by
        rw [hlen1]; ring] at hloop
      rw [hloop] at hfirst
      rw [show extendGo [c] pretty true
          [(base, th1v.nbinsX + (rest.map (fun p => p.snd.nbinsX)).sum)]
          (extInputsTable base c ((v1, th1v) :: rest)) [] =
        executeExtend ⟨SType.EXTEND_X, st, [c], arg⟩ pretty
          (extInputsTable base c ((v1, th1v) :: rest)) true by
          simp only [executeExtend]
          rw [hnb]] at hfirst
      refine ⟨_, _, hfirst, rfl, ?_, ?_⟩
      · simp [mkTH1F_nbinsX]
      · simp

/-- Closed instantiation of executeExtend_concat on three inputs of 2,
3 and 1 bins keyed 10 < 20 < 30. -/
theorem executeExtend_concat_witness :
    SortedT (extInputsTable exExtBase 0 exExtInputs)
    ∧ ∃ ah th, executeExtend ⟨SType.EXTEND_X, Stage.STAGE2, [0], ""⟩
        (fun _ => "col") (extInputsTable exExtBase 0 exExtInputs) true =
        .ok [(exExtBase, ah)]
      ∧ ah.th1 = some th
      ∧ th.nbinsX = (exExtInputs.map (fun p => p.snd.nbinsX)).sum
      ∧ th.binsX = (exExtInputs.map (fun p => p.snd.binsX)).flatten :=
  executeExtend_concat Stage.STAGE2 "" (fun _ => "col") exExtBase 0
    exExtInputs (by decide)
    (by simp [exExtInputs, List.chain'_cons, List.chain'_singleton])
    (by decide) (by simp [exExtInputs])

/-- Closed instantiation of count_perEventHarvest_fill at one sample. -/
theorem count_perEventHarvest_fill_witness :
    (([((3 : Rat), (4 : Rat))] : List (Rat × Rat)) ≠ [])
    ∧ (runUncached false 0 progCountGroup exK2 [((3 : Rat), (4 : Rat))]
        [(exK, ⟨0, none, some ⟨exTh⟩⟩)] =
      .ok [(exK, ⟨0, none, some ⟨exTh⟩⟩),
           (exK2, ⟨(([((3 : Rat), (4 : Rat))] : List (Rat × Rat)).length : Int),
             none, none⟩)]
    ∧ executePerEventHarvesting false 0 progCountGroup
        [(exK, ⟨0, none, some ⟨exTh⟩⟩),
         (exK2, ⟨(([((3 : Rat), (4 : Rat))] : List (Rat × Rat)).length : Int),
           none, none⟩)] =
      .ok [(exK, ⟨0, none, some
              ⟨exTh.fill1 ((((([((3 : Rat), (4 : Rat))] :
                List (Rat × Rat)).length : Int)) : Rat))⟩⟩),
           (exK2, ⟨0, none, none⟩)]) :=
  ⟨by simp, count_perEventHarvest_fill false 0 0 exTh [(3, 4)] (by simp)⟩

/-- A STAGE1 walk started with a non-empty cache slot mirrors the walk
started with the slot empty: same error, or same state up to the slot —
except on the counting early return, where the increment goes through
the slot's key instead of an ensure-and-increment at the current key. -/
theorem runSteps_stage1_sim :
    ∀ (steps : List Step) (x y : Rat) (d : Int) (sv : Values) (t : Table)
      (k : Values),
    runSteps .STAGE1 steps ⟨x, y, d, sv, t, some k⟩ =
      match runSteps .STAGE1 steps ⟨x, y, d, sv, t, none⟩ with
      | .error e => .error e
      | .ok (.done s2) => .ok (.done { s2 with fp := some k })
      | .ok (.ret s2) => .ok (.ret { s2 with
          t := Table.modify t k (fun h => { h with count := h.count + 1 }),
          fp := some k }) := by
  intro steps
  induction steps with
  | nil =>
    intro x y d sv t k
    simp [runSteps]
  | cons st rest ih =>
    intro x y d sv t k
    by_cases hst : st.stage = Stage.STAGE1
    · cases htype : st.type with
      | SAVE =>
        simp only [runSteps, if_pos hst, stepOne, htype]
        exact ih x y d sv t k
      | COUNT =>
        cases hnx : rest.head? with
        | none => simp [runSteps, if_pos hst, stepOne, htype, hnx]
        | some nx =>
          by_cases hnxs : nx.stage = Stage.STAGE1_2
          · simp [runSteps, if_pos hst, stepOne, htype, hnx, if_pos hnxs]
          · simp only [runSteps, if_pos hst, stepOne, htype, hnx,
              if_neg hnxs]
            exact ih 0 0 0 sv t k
      | EXTEND_X =>
        by_cases hc : x = 0 ∧ d ≠ 1
        · cases hcols : st.columns with
          | nil => simp [runSteps, if_pos hst, stepOne, htype, hcols,
              if_pos hc]
          | cons c cs =>
            simp only [runSteps, if_pos hst, stepOne, htype, hcols,
              if_pos hc]
            exact ih _ y _ _ t k
        · simp [runSteps, if_pos hst, stepOne, htype, if_neg hc]
      | EXTEND_Y =>
        by_cases hc : y = 0
        · cases hcols : st.columns with
          | nil => simp [runSteps, if_pos hst, stepOne, htype, hcols,
              if_pos hc]
          | cons c cs =>
            simp only [runSteps, if_pos hst, stepOne, htype, hcols,
              if_pos hc]
            exact ih x _ 2 _ t k
        · simp [runSteps, if_pos hst, stepOne, htype, if_neg hc]
      | GROUPBY => simp [runSteps, if_pos hst, stepOne, htype]
      | REDUCE => simp [runSteps, if_pos hst, stepOne, htype]
      | CUSTOM => simp [runSteps, if_pos hst, stepOne, htype]
      | NO_TYPE => simp [runSteps, if_pos hst, stepOne, htype]
    · simp only [runSteps, if_neg hst]
      exact ih x y d sv t k

/-- Two successful STAGE1 walks of the same program from the same Key
and configured dimensionality agree on their outcome shape (early
return vs fall-through) and on the key they end on, whatever the sample
values, table and cache slot: the walk's trajectory is data-independent
except for the asserts, which fail the run. -/
theorem runSteps_stage1_agree :
    ∀ (steps : List Step) (x y x2 y2 : Rat) (d : Int) (sv : Values)
      (t t2 : Table) (fp fp2 : Option Values) (r r2 : LoopRes),
    runSteps .STAGE1 steps ⟨x, y, d, sv, t, fp⟩ = .ok r →
    runSteps .STAGE1 steps ⟨x2, y2, d, sv, t2, fp2⟩ = .ok r2 →
    r.isRet = r2.isRet ∧ r.sv = r2.sv := by
  intro steps
  induction steps with
  | nil =>
    intro x y x2 y2 d sv t t2 fp fp2 r r2 h1 h2
    simp only [runSteps, Except.ok.injEq] at h1 h2
    subst h1
    subst h2
    simp [LoopRes.isRet, LoopRes.sv]
  | cons st rest ih =>
    intro x y x2 y2 d sv t t2 fp fp2 r r2 h1 h2
    by_cases hst : st.stage = Stage.STAGE1
    · cases htype : st.type with
      | SAVE =>
        simp only [runSteps, if_pos hst, stepOne, htype] at h1 h2
        exact ih x y x2 y2 d sv t t2 fp fp2 r r2 h1 h2
      | COUNT =>
        cases hnx : rest.head? with
        | none =>
          simp [runSteps, if_pos hst, stepOne, htype, hnx] at h1
        | some nx =>
          by_cases hnxs : nx.stage = Stage.STAGE1_2
          · simp only [runSteps, if_pos hst, stepOne, htype, hnx,
              if_pos hnxs] at h1 h2
            cases fp <;> cases fp2 <;>
              simp only [Except.ok.injEq] at h1 h2 <;>
              subst h1 <;> subst h2 <;>
              simp [LoopRes.isRet, LoopRes.sv]
          · simp only [runSteps, if_pos hst, stepOne, htype, hnx,
              if_neg hnxs] at h1 h2
            exact ih 0 0 0 0 0 sv t t2 fp fp2 r r2 h1 h2
      | EXTEND_X =>
        by_cases hc1 : x = 0 ∧ d ≠ 1
        · by_cases hc2 : x2 = 0 ∧ d ≠ 1
          · cases hcols : st.columns with
            | nil =>
              simp [runSteps, if_pos hst, stepOne, htype, hcols,
                if_pos hc1] at h1
            | cons c cs =>
              simp only [runSteps, if_pos hst, stepOne, htype, hcols,
                if_pos hc1] at h1
              simp only [runSteps, if_pos hst, stepOne, htype, hcols,
                if_pos hc2] at h2
              exact ih _ _ _ _ _ _ t t2 fp fp2 r r2 h1 h2
          · simp [runSteps, if_pos hst, stepOne, htype, if_neg hc2] at h2
        · simp [runSteps, if_pos hst, stepOne, htype, if_neg hc1] at h1
      | EXTEND_Y =>
        by_cases hc1 : y = 0
        · by_cases hc2 : y2 = 0
          · cases hcols : st.columns with
            | nil =>
              simp [runSteps, if_pos hst, stepOne, htype, hcols,
                if_pos hc1] at h1
            | cons c cs =>
              simp only [runSteps, if_pos hst, stepOne, htype, hcols,
                if_pos hc1] at h1
              simp only [runSteps, if_pos hst, stepOne, htype, hcols,
                if_pos hc2] at h2
              exact ih _ _ _ _ _ _ t t2 fp fp2 r r2 h1 h2
          · simp [runSteps, if_pos hst, stepOne, htype, if_neg hc2] at h2
        · simp [runSteps, if_pos hst, stepOne, htype, if_neg hc1] at h1
      | GROUPBY => simp [runSteps, if_pos hst, stepOne, htype] at h1
      | REDUCE => simp [runSteps, if_pos hst, stepOne, htype] at h1
      | CUSTOM => simp [runSteps, if_pos hst, stepOne, htype] at h1
      | NO_TYPE => simp [runSteps, if_pos hst, stepOne, htype] at h1
    · simp only [runSteps, if_neg hst] at h1 h2
      exact ih x y x2 y2 d sv t t2 fp fp2 r r2 h1 h2

/-- Every successful stage-1 call started with an empty cache slot
leaves a sorted table and an aligned cache slot: the executor's output
fastpath either is empty or designates the booked, present entry every
later walk on the new table selects. -/
theorem executeStep1Spec_establish (bu : Bool) (d0 : Int) (x y : Rat)
    (K : Values) (steps : List Step) (t : Table) (o : S1Out)
    (hs : SortedT t)
    (he : executeStep1Spec bu d0 x y K steps t .STAGE1 none = .ok o) :
    SortedT o.t ∧ Aligned steps d0 K o.t o.fp := by
  rw [executeStep1Spec] at he
  cases hr : runSteps .STAGE1 steps ⟨x, y, d0, K, t, none⟩ with
  | error e =>
    rw [hr] at he
    simp at he
  | ok r =>
    rw [hr] at he
    cases r with
    | ret s2 =>
      obtain ⟨hfp2, ht2⟩ :=
        runSteps_stage1_ret_shape steps ⟨x, y, d0, K, t, none⟩ s2 rfl hr
      simp only [Except.ok.injEq] at he
      subst he
      dsimp only
      constructor
      · rw [ht2]
        exact sorted_modify _ s2.sv _ (sorted_ensure t s2.sv hs)
      · rw [hfp2]
        refine Or.inr ⟨s2.sv, rfl, ?_, ?_, ?_⟩
        · rw [ht2]
          exact ensure_self_of_keys (Table.ensure t s2.sv) _ s2.sv
            (keys_modify (Table.ensure t s2.sv) s2.sv _).symm
            (ensure_idem t s2.sv)
        · intro x3 y3 s3 h3
          have hag := runSteps_stage1_agree steps x3 y3 x y d0 K
            s2.t t none none (.ret s3) (.ret s2) h3 hr
          exact hag.2
        · intro x3 y3 s3 h3
          have hag := runSteps_stage1_agree steps x3 y3 x y d0 K
            s2.t t none none (.done s3) (.ret s2) h3 hr
          exact absurd hag.1 (by simp [LoopRes.isRet])
    | done s2 =>
      obtain ⟨ht2, hfp2⟩ :=
        runSteps_stage1_done_inv steps ⟨x, y, d0, K, t, none⟩ s2 hr
      dsimp only at ht2 hfp2
      simp only [hfp2, ht2] at he
      cases hf : Table.find? t s2.sv with
      | none =>
        rw [hf] at he
        dsimp only at he
        cases bu with
        | true => simp at he
        | false =>
          simp only [Bool.false_eq_true, if_false, Except.ok.injEq] at he
          subst he
          exact ⟨hs, Or.inl rfl⟩
      | some h =>
        rw [hf] at he
        dsimp only at he
        cases hbk : h.isBooked with
        | false =>
          rw [if_neg (by simp [hbk])] at he
          cases bu with
          | true => simp at he
          | false =>
            simp only [Bool.false_eq_true, if_false, Except.ok.injEq] at he
            subst he
            exact ⟨hs, Or.inl rfl⟩
        | true =>
          rw [if_pos hbk] at he
          simp only [Except.ok.injEq] at he
          subst he
          dsimp only
          refine ⟨sorted_modify t s2.sv _ hs,
            Or.inr ⟨s2.sv, rfl, ?_, ?_, ?_⟩⟩
          · exact ensure_self_of_keys t _ s2.sv
              (keys_modify t s2.sv _).symm
              (ensure_of_found t s2.sv hs (by rw [hf]; rfl))
          · intro x3 y3 s3 h3
            have hag := runSteps_stage1_agree steps x3 y3 x y d0 K
              (Table.modify t s2.sv fun hh => hh.fillDims s2.dims s2.x s2.y)
              t none none (.ret s3) (.done s2) h3 hr
            exact absurd hag.1 (by simp [LoopRes.isRet])
          · intro x3 y3 s3 h3
            have hag := runSteps_stage1_agree steps x3 y3 x y d0 K
              (Table.modify t s2.sv fun hh => hh.fillDims s2.dims s2.x s2.y)
              t none none (.done s3) (.done s2) h3 hr
            have hsv : s3.sv = s2.sv := hag.2
            refine ⟨hsv, h.fillDims s2.dims s2.x s2.y, ?_,
              isBooked_fillDims h s2.dims s2.x s2.y hbk⟩
            rw [hsv, find?_modify_self, hf]
            rfl

/-- On an aligned table-and-slot pair, a stage-1 call with the cache
slot gives exactly the same outcome as the call with the slot empty. -/
theorem executeStep1Spec_cached_eq (bu : Bool) (d0 : Int) (x y : Rat)
    (K : Values) (steps : List Step) (t : Table) (fp : Option Values)
    (ha : Aligned steps d0 K t fp) :
    executeStep1Spec bu d0 x y K steps t .STAGE1 fp =
      executeStep1Spec bu d0 x y K steps t .STAGE1 none := by
  rcases ha with hnone | ⟨k, hfpk, hstab, hret, hdone⟩
  · rw [hnone]
  · subst hfpk
    rw [executeStep1Spec, executeStep1Spec,
      runSteps_stage1_sim steps x y d0 K t k]
    cases hr : runSteps .STAGE1 steps ⟨x, y, d0, K, t, none⟩ with
    | error e => rfl
    | ok r =>
      cases r with
      | ret s2 =>
        obtain ⟨hfp2, ht2⟩ :=
          runSteps_stage1_ret_shape steps ⟨x, y, d0, K, t, none⟩ s2 rfl hr
        dsimp only at ht2
        have hk := hret x y s2 hr
        dsimp only
        rw [ht2, hfp2, hk, hstab]
      | done s2 =>
        obtain ⟨ht2, hfp2⟩ :=
          runSteps_stage1_done_inv steps ⟨x, y, d0, K, t, none⟩ s2 hr
        dsimp only at ht2 hfp2
        obtain ⟨hk, h, hf, hbk⟩ := hdone x y s2 hr
        dsimp only
        rw [hfp2]
        dsimp only
        rw [ht2, hf]
        dsimp only
        rw [if_pos hbk, hk]

/-- The per-call equality extended along any sample sequence: from a
sorted table and an aligned slot, carrying the slot equals resetting
it before every call. -/
theorem runCached_aligned (bu : Bool) (d0 : Int) (steps : List Step)
    (K : Values) :
    ∀ (samples : List (Rat × Rat)) (t : Table) (fp : Option Values),
    SortedT t → Aligned steps d0 K t fp →
    runCached bu d0 steps K samples t fp =
      runUncached bu d0 steps K samples t := by
  intro samples
  induction samples with
  | nil =>
    intro t fp _ _
    rfl
  | cons p rest ih =>
    intro t fp hs ha
    obtain ⟨x, y⟩ := p
    simp only [runCached, runUncached]
    rw [executeStep1Spec_cached_eq bu d0 x y K steps t fp ha]
    cases he : executeStep1Spec bu d0 x y K steps t .STAGE1 none with
    | error e => rfl
    | ok o =>
      dsimp only
      obtain ⟨hs2, ha2⟩ :=
        executeStep1Spec_establish bu d0 x y K steps t o hs he
      exact ih o.t o.fp hs2 ha2

/-- C1: for every sequence of stage-1 fill calls whose samples share the
same extracted Key, running the executor with the caller-supplied cache
slot (fastpath) carried between calls — starting, as the manager does on
a new source, from an empty slot — produces exactly the same final Table
as running the sequence with the slot reset to empty before every call:
the cache only skips the map lookup. -/
theorem runCached_eq_runUncached (bu : Bool) (d0 : Int) (steps : List Step)
    (K : Values) (samples : List (Rat × Rat)) (t : Table)
    (hs : SortedT t) :
    runCached bu d0 steps K samples t none =
      runUncached bu d0 steps K samples t :=
  runCached_aligned bu d0 steps K samples t none hs (Or.inl rfl)

/-- Closed instantiation of runCached_eq_runUncached: two samples
through a COUNT-then-SAVE stage-1 program over a singleton booked
table. -/
theorem runCached_eq_runUncached_witness :
    SortedT [(exK, (⟨0, some exTh, none⟩ : AbstractHistogram))]
    ∧ runCached false 1 exProgCountSave exK [(5, 0), (7, 0)]
        [(exK, ⟨0, some exTh, none⟩)] none =
      runUncached false 1 exProgCountSave exK [(5, 0), (7, 0)]
        [(exK, ⟨0, some exTh, none⟩)] :=
  ⟨by simp [SortedT],
   runCached_eq_runUncached false 1 exProgCountSave exK [(5, 0), (7, 0)]
     [(exK, ⟨0, some exTh, none⟩)] (by simp [SortedT])⟩

end HistMgr
